import Mathlib

set_option synthInstance.maxSize 512

/-! Overview.
Verification of the `mnkgame` board model and game-tree search engine
(`src/mnkgame/Board.py`, `src/mnkgame/BoardGravity.py`,
`src/mnkgame/GameAiSearchTree.py`).

Conventions of the shallow embedding:
* numpy float scores are `Score` (−inf / finite int / +inf); `np.nan` is the
  `none` of an `Option Score`.
* Wall-clock time cannot elapse in the embedding: `time.time() - clock` is 0,
  so a call's remaining budget is passed to children unchanged.  A budget
  `0 ≤ t` therefore models "large enough that no timeout occurs".
* The mutable board threaded through the recursion with `do_move`/`undo_move`
  is embedded as pure state passing (`doMove` returning the new state); this
  is justified by the move/unmove symmetry theorem proved below.
* A numpy `IndexError` is the `none` of an `Option` result; negative indices
  wrap as in numpy.
-/

/-- Scores as produced by the search: `np.inf`, finite integers, `-np.inf`.
(`game.get_score()` is always a Python int; `game.win_score` is `np.inf`.) -/
inductive Score where
  | negInf : Score
  | fin : Int → Score
  | posInf : Score
deriving DecidableEq, Repr

namespace Score

/-- Strict comparison of extended values, as float `<` behaves on them. -/
def blt : Score → Score → Bool
  | negInf, negInf => false
  | negInf, fin _ => true
  | negInf, posInf => true
  | fin _, negInf => false
  | fin m, fin n => decide (m < n)
  | fin _, posInf => true
  | posInf, _ => false

/-- Float negation restricted to the values the search produces. -/
def neg : Score → Score
  | negInf => posInf
  | fin n => fin (-n)
  | posInf => negInf

/-- Python `-alpha - 1` as negascout's null-window bound computes it in float
arithmetic (`-(-inf) - 1 = inf`, `-inf - 1 = -inf`). -/
def negsub1 : Score → Score
  | negInf => posInf
  | fin n => fin (-n - 1)
  | posInf => negInf

instance : LT Score := ⟨fun a b => blt a b = true⟩
instance : LE Score := ⟨fun a b => blt b a = false⟩

instance decLT : @DecidableRel Score (· < ·) :=
  fun a b => inferInstanceAs (Decidable (blt a b = true))
instance decLE : @DecidableRel Score (· ≤ ·) :=
  fun a b => inferInstanceAs (Decidable (blt b a = false))

theorem lt_def {a b : Score} : a < b ↔ blt a b = true := Iff.rfl
theorem le_def {a b : Score} : a ≤ b ↔ blt b a = false := Iff.rfl

instance : LinearOrder Score where
  le_refl a := by cases a <;> simp [le_def, blt]
  le_trans a b c := by
    cases a <;> cases b <;> cases c <;> simp_all [le_def, blt] <;> omega
  le_antisymm a b := by
    cases a <;> cases b <;> simp_all [le_def, blt] <;> omega
  le_total a b := by
    cases a <;> cases b <;> simp [le_def, blt] <;> omega
  lt_iff_le_not_le a b := by
    cases a <;> cases b <;> simp [le_def, lt_def, blt] <;> omega
  decidableLE := decLE
  decidableEq := inferInstance
  decidableLT := decLT

theorem negInf_le (a : Score) : negInf ≤ a := by cases a <;> simp [le_def, blt]
theorem le_posInf (a : Score) : a ≤ posInf := by cases a <;> simp [le_def, blt]

theorem neg_neg (a : Score) : a.neg.neg = a := by cases a <;> simp [neg]

theorem neg_le_neg_iff {a b : Score} : a.neg ≤ b.neg ↔ b ≤ a := by
  cases a <;> cases b <;> simp [le_def, blt, neg] <;> omega

theorem neg_lt_neg_iff {a b : Score} : a.neg < b.neg ↔ b < a := by
  cases a <;> cases b <;> simp [lt_def, blt, neg] <;> omega

/-- Rewriting `if a < b then b else a` (the shape of `if value > best_value:` updates)
is the order-theoretic maximum. -/
theorem ifmax_eq (a b : Score) : (if a < b then b else a) = max a b := by
  rcases le_or_lt b a with h | h
  · rw [if_neg (not_lt.mpr h), max_eq_left h]
  · rw [if_pos h, max_eq_right h.le]

end Score

/-- numpy index semantics for a single axis of length `n`: indices in
`[0, n)` are taken as-is, indices in `[-n, 0)` wrap, anything else raises
`IndexError` (`none`). -/
def npIndex (n : Nat) (i : Int) : Option Nat :=
  if 0 ≤ i ∧ i < n then some i.toNat
  else if -(n : Int) ≤ i ∧ i < 0 then some (n + i).toNat
  else none

/-- Python `Board` (src/mnkgame/Board.py): `_rows`, `_cols`, `_num_win`, the uint8
grid `_matrix` (row-major, cell values 0 = EMPTY, 1, 2 = the TURNS) and
`_turn`, the player who made the last move. -/
structure Board where
  rows : Nat
  cols : Nat
  numWin : Nat
  matrix : List (List Nat)
  turn : Nat
deriving DecidableEq, Repr

namespace Board

/-- Python `Board.reset`: all-EMPTY grid, `_turn = TURNS[-1] = 2`. -/
def resetB (b : Board) : Board :=
  { b with matrix := List.replicate b.rows (List.replicate b.cols 0), turn := 2 }

/-- Python `Board.__init__(rows, cols, num_win)` (which calls `reset`). -/
def mkBoard (rows cols numWin : Nat) : Board :=
  { rows := rows, cols := cols, numWin := numWin,
    matrix := List.replicate rows (List.replicate cols 0), turn := 2 }

/-- Python `Board.next_turn` (= `prev_turn`): swaps the two TURNS, EMPTY otherwise. -/
def nextTurn (turn : Nat) : Nat :=
  if turn = 1 then 2 else if turn = 2 then 1 else 0

/-- In-bounds cell read `self._matrix[r, c]` for natural indices. -/
def cellN (b : Board) (r c : Nat) : Nat := (b.matrix.getD r []).getD c 0

/-- Python `self._matrix[coord]` for an arbitrary integer coordinate, with numpy
wrapping and `IndexError` (`none`). -/
def cellI (b : Board) (m : Int × Int) : Option Nat :=
  match npIndex b.rows m.1, npIndex b.cols m.2 with
  | some r, some c => some (b.cellN r c)
  | _, _ => none

/-- Write one grid cell (in-bounds natural indices). -/
def setCell (mat : List (List Nat)) (r c v : Nat) : List (List Nat) :=
  mat.set r ((mat.getD r []).set c v)

/-- Python `Board.is_empty`: `np.all(matrix == EMPTY)`. -/
def isEmptyB (b : Board) : Bool := b.matrix.all fun row => row.all (· = 0)

/-- Python `Board.is_full`: `not np.any(matrix == EMPTY)`. -/
def isFullB (b : Board) : Bool := b.matrix.all fun row => row.all (· ≠ 0)

/-- Python `Board.is_valid_move(coord)`: pure bounds check. -/
def isValidMoveB (b : Board) (m : Int × Int) : Bool :=
  decide (0 ≤ m.1 ∧ m.1 < (b.rows : Int)) && decide (0 ≤ m.2 ∧ m.2 < (b.cols : Int))

/-- Python `Board.is_avail_move(coord)`: `matrix[coord] == EMPTY` — an unguarded
numpy read; `none` models the `IndexError` it raises out of bounds. -/
def isAvailMove (b : Board) (m : Int × Int) : Option Bool :=
  (b.cellI m).map (fun v => decide (v = 0))

/-- Python `Board.avail_moves()`: the coordinates of the EMPTY cells.  The source
materialises `np.where(matrix == EMPTY)` as a set; the embedding fixes the
row-major enumeration as the concrete iteration order. -/
def availMoves (b : Board) : List (Int × Int) :=
  (List.range b.rows).flatMap fun i =>
    ((List.range b.cols).filter fun j => b.cellN i j = 0).map
      fun j => ((i : Int), (j : Int))

/-- Stable insertion into a list sorted by an integer key. -/
def insertKeyed (key : α → Int) (x : α) : List α → List α
  | [] => [x]
  | y :: ys => if key x ≤ key y then x :: y :: ys else y :: insertKeyed key x ys

/-- Stable sort by an integer key, modelling Python's `sorted`. -/
def sortKeyed (key : α → Int) (l : List α) : List α :=
  l.foldr (insertKeyed key) []

/-- Python `Board.sorted_moves()`: available moves by ascending squared distance
from the centre cell `(rows // 2, cols // 2)`. -/
def sortedMovesB (b : Board) : List (Int × Int) :=
  sortKeyed
    (fun m => (m.1 - (b.rows : Int) / 2) ^ 2 + (m.2 - (b.cols : Int) / 2) ^ 2)
    b.availMoves

/-- Python `Board.do_move(coord)`: only an available move is applied; the mover's
mark is `next_turn` of the stored last turn. -/
def doMove (b : Board) (m : Int × Int) : Bool × Board :=
  if m ∈ b.availMoves then
    let t := nextTurn b.turn
    (true, { b with turn := t, matrix := setCell b.matrix m.1.toNat m.2.toNat t })
  else (false, b)

/-- Python `Board.undo_move(coord)`: clears an in-bounds, non-empty cell and steps
the turn back (`prev_turn = next_turn`). -/
def undoMove (b : Board) (m : Int × Int) : Bool × Board :=
  if b.isValidMoveB m ∧ b.cellN m.1.toNat m.2.toNat ≠ 0 then
    (true, { b with turn := nextTurn b.turn,
                    matrix := setCell b.matrix m.1.toNat m.2.toNat 0 })
  else (false, b)

/-- The short-circuiting `all(self.do_move(coord) for coord in coords)`. -/
def applyAll (b : Board) : List (Int × Int) → Bool × Board
  | [] => (true, b)
  | m :: ms =>
    let r := b.doMove m
    if r.1 then r.2.applyAll ms else (false, r.2)

/-- Python `Board.undo_moves`: short-circuiting `all(self.undo_move(coord) ...)`. -/
def undoAll (b : Board) : List (Int × Int) → Bool × Board
  | [] => (true, b)
  | m :: ms =>
    let r := b.undoMove m
    if r.1 then r.2.undoAll ms else (false, r.2)

/-- Python `Board.do_moves(coords, reset=True)`: optional reset, apply all moves
(short-circuiting), and on failure `undo_moves(coords[::-1])`. -/
def doMoves (b : Board) (coords : List (Int × Int)) (reset : Bool) : Bool × Board :=
  let b0 := if reset then b.resetB else b
  let r := b0.applyAll coords
  if r.1 then (true, r.2) else (false, (r.2.undoAll coords.reverse).2)

/-- Number of cells satisfying a predicate. -/
def countCells (b : Board) (p : Nat → Bool) : Nat :=
  (b.matrix.map fun row => row.countP p).sum

/-- Python `Board.num_moves()`: occupied cells. -/
def numMoves (b : Board) : Nat := b.countCells (· ≠ 0)

/-- Python `Board.num_moves_left()`: empty cells. -/
def numMovesLeft (b : Board) : Nat := b.countCells (· = 0)

/-- Python `Board.get_score()`:
`(max_num_moves - num_moves() - 1) * (1 if turn == TURNS[0] else -1)`. -/
def getScore (b : Board) : Int :=
  ((b.rows * b.cols : Nat) - (b.numMoves : Int) - 1) * (if b.turn = 1 then 1 else -1)

/-- The run scan of `Board.winner(turn)` for a specific player: anti-diagonal
or diagonal window, then horizontal, then vertical runs of length `num_win`. -/
def hasRun (b : Board) (t : Nat) : Bool :=
  (((List.range (b.rows + 1 - b.numWin)).any fun i =>
      ((List.range (b.cols + 1 - b.numWin)).any fun j =>
        ((List.range b.numWin).all fun k => b.cellN (i + k) (j + b.numWin - 1 - k) = t)
        || ((List.range b.numWin).all fun k => b.cellN (i + k) (j + k) = t))))
  || (((List.range b.rows).any fun i =>
        ((List.range (b.cols + 1 - b.numWin)).any fun j =>
          (List.range b.numWin).all fun k => b.cellN i (j + k) = t)))
  || (((List.range (b.rows + 1 - b.numWin)).any fun i =>
        ((List.range b.cols).any fun j =>
          (List.range b.numWin).all fun k => b.cellN (i + k) j = t)))

/-- Python `Board.winner(turn)` for a specific `turn`: EMPTY on an empty board,
otherwise the player if it has a winning run. -/
def winnerFor (b : Board) (t : Nat) : Nat :=
  if b.isEmptyB then 0 else if b.hasRun t then t else 0

/-- Python `game.winner(game.turn) == game.turn`, the search's terminal test. -/
def winnerTurnB (b : Board) : Bool := decide (b.winnerFor b.turn = b.turn)

/-- Well-formed shape: the grid really is `rows × cols` (numpy guarantees
this for every Python `Board`). -/
def WF (b : Board) : Prop :=
  b.matrix.length = b.rows ∧ ∀ row ∈ b.matrix, row.length = b.cols

end Board

/-- Python `BoardGravity` (src/mnkgame/BoardGravity.py): a `Board` plus the
redundant `_column_heights` index (Python ints). -/
structure BoardG where
  rows : Nat
  cols : Nat
  numWin : Nat
  matrix : List (List Nat)
  turn : Nat
  heights : List Int
deriving DecidableEq, Repr

namespace BoardG

/-- Python `BoardGravity.reset`: the inherited reset plus all-zero column heights. -/
def mkBoardG (rows cols numWin : Nat) : BoardG :=
  { rows := rows, cols := cols, numWin := numWin,
    matrix := List.replicate rows (List.replicate cols 0), turn := 2,
    heights := List.replicate cols 0 }

/-- In-bounds cell read (row-major grid, row 0 is the top). -/
def cellN (b : BoardG) (r c : Nat) : Nat := (b.matrix.getD r []).getD c 0

/-- Python `BoardGravity.is_valid_move(col)`: `0 <= col < cols`. -/
def isValidMoveG (b : BoardG) (c : Int) : Bool :=
  decide (0 ≤ c ∧ c < (b.cols : Int))

/-- Python `BoardGravity.avail_moves()`: columns whose top cell (row 0) is EMPTY. -/
def availMovesG (b : BoardG) : List Int :=
  ((List.range b.cols).filter fun j => b.cellN 0 j = 0).map fun j => (j : Int)

/-- Python `BoardGravity.sorted_moves()`: columns by `abs(x - cols / 2)`.  The float
key `|x - cols/2|` is embedded as the integer key `|2x - cols|`, which has
exactly the same comparisons. -/
def sortedMovesG (b : BoardG) : List Int :=
  Board.sortKeyed (fun x => |2 * x - (b.cols : Int)|) b.availMovesG

/-- Python `BoardGravity.do_move(col)`: drop on top of the column,
`row = rows - column_heights[col] - 1`, and bump the height.  `none` is the
numpy `IndexError` for a row index outside the wrap range. -/
def doMoveG (b : BoardG) (c : Int) : Option (Bool × BoardG) :=
  if c ∈ b.availMovesG then
    match npIndex b.rows ((b.rows : Int) - b.heights.getD c.toNat 0 - 1) with
    | some r =>
      some (true, { b with turn := Board.nextTurn b.turn,
                           matrix := Board.setCell b.matrix r c.toNat
                             (Board.nextTurn b.turn),
                           heights := b.heights.set c.toNat
                             (b.heights.getD c.toNat 0 + 1) })
    | none => none
  else some (false, b)

/-- Python `BoardGravity.undo_move(col)`: refuse unless the column is in bounds and
non-empty (`matrix[-1, col] != EMPTY` — reading row `-1` raises `IndexError`
when the row axis is empty), then clear `row = rows - column_heights[col]`
and drop the height. -/
def undoMoveG (b : BoardG) (c : Int) : Option (Bool × BoardG) :=
  if b.isValidMoveG c then
    if b.rows = 0 then none
    else if b.cellN (b.rows - 1) c.toNat ≠ 0 then
      match npIndex b.rows ((b.rows : Int) - b.heights.getD c.toNat 0) with
      | some r =>
        some (true, { b with turn := Board.nextTurn b.turn,
                             matrix := Board.setCell b.matrix r c.toNat 0,
                             heights := b.heights.set c.toNat
                               (b.heights.getD c.toNat 0 - 1) })
      | none => none
    else some (false, b)
  else some (false, b)

/-- Number of non-empty cells in column `c` of the grid. -/
def colCount (b : BoardG) (c : Nat) : Nat :=
  (List.range b.rows).countP fun r => b.cellN r c ≠ 0

/-- The gravity data-model invariant: positive height, `rows × cols` grid,
`cols` heights, and each column filled contiguously from the bottom with
exactly `column_heights[c]` pieces. -/
def InvG (b : BoardG) : Prop :=
  1 ≤ b.rows ∧
  b.matrix.length = b.rows ∧
  (∀ row ∈ b.matrix, row.length = b.cols) ∧
  b.heights.length = b.cols ∧
  (∀ c, c < b.cols →
    0 ≤ b.heights.getD c 0 ∧ b.heights.getD c 0 ≤ (b.rows : Int) ∧
    (∀ r, r < b.rows →
      (b.cellN r c ≠ 0 ↔ (b.rows : Int) - b.heights.getD c 0 ≤ (r : Int))))

/-- States reachable from `reset` by `do_move` / `undo_move` calls
(failed calls included; `some` excludes the unreachable `IndexError`). -/
inductive ReachG : BoardG → Prop where
  | init (rows cols numWin : Nat) (h : 1 ≤ rows) : ReachG (mkBoardG rows cols numWin)
  | do_step {b b' : BoardG} {res : Bool} {c : Int} :
      ReachG b → b.doMoveG c = some (res, b') → ReachG b'
  | undo_step {b b' : BoardG} {res : Bool} {c : Int} :
      ReachG b → b.undoMoveG c = some (res, b') → ReachG b'

end BoardG

/-! Section: The search engine (src/mnkgame/GameAiSearchTree.py)

The Python search functions are duck-typed over any `game` object; the
embedding is parametric over the same interface.  `doMove` is the pure
counterpart of the `do_move`/`undo_move` bracket around every recursive
call (justified by the move/unmove symmetry theorem), and `rep` is the
canonical serialisation `repr(game)` (grid plus last turn), used as the
cache/transposition key. -/
structure GameIF (σ μ : Type) where
  winnerTurn : σ → Bool
  isFull : σ → Bool
  getScore : σ → Int
  sortedMoves : σ → List μ
  doMove : σ → μ → σ
  rep : σ → List (List Nat) × Nat
  numMovesLeft : σ → Nat

/-- The `GameIF` instance for plain boards. -/
def boardIF : GameIF Board (Int × Int) where
  winnerTurn := Board.winnerTurnB
  isFull := Board.isFullB
  getScore := Board.getScore
  sortedMoves := Board.sortedMovesB
  doMove := fun b m => (b.doMove m).2
  rep := fun b => (b.matrix, b.turn)
  numMovesLeft := Board.numMovesLeft

/-- Python `HASH_FLAG_LOWER / HASH_FLAG_UPPER / HASH_FLAG_EXACT`. -/
def HASH_FLAG_LOWER : Int := -1
def HASH_FLAG_UPPER : Int := 1
def HASH_FLAG_EXACT : Int := 0

/-- The move loop of `negamax`: `do_move`, recurse negated, `undo_move`,
keep the maximum (`if value > best_value`).  A `none` child (`np.nan`)
fails every comparison and leaves `best_value` unchanged. -/
def nmLoop (step : σ → Option Score) (G : GameIF σ μ) (g : σ) :
    List μ → Score → Score
  | [], best => best
  | m :: ms, best =>
    let v := (step (G.doMove g m)).map Score.neg
    let best' := match v with
      | none => best
      | some v => if best < v then v else best
    nmLoop step G g ms best'

/-- Python `negamax(game, depth, max_duration)`.  With the frozen clock the budget
reaches every recursive call unchanged.  The `depth == 0 or is_full` test is
split over the two `Nat` patterns. -/
def negamax (G : GameIF σ μ) (t : Int) : Nat → σ → Option Score
  | 0, g =>
    if t < 0 then none
    else if G.winnerTurn g then some Score.negInf
    else some (Score.fin (-(G.getScore g)))
  | d + 1, g =>
    if t < 0 then none
    else if G.winnerTurn g then some Score.negInf
    else if G.isFull g then some (Score.fin (-(G.getScore g)))
    else some (nmLoop (fun s => negamax G t d s) G g (G.sortedMoves g) Score.negInf)

/-- The move loop of `negamax_alphabeta`: child window
`(-beta, -alpha)` when `soft` else `(alpha, beta)`, fail-soft bookkeeping
`best_value`/`alpha`, and the `alpha >= beta` cutoff checked after each
child. -/
def abLoop (step : σ → Score → Score → Option Score) (G : GameIF σ μ) (g : σ)
    (soft : Bool) (β : Score) : List μ → Score → Score → Score
  | [], best, _ => best
  | m :: ms, best, α =>
    let v := (step (G.doMove g m) (if soft then β.neg else α)
                (if soft then α.neg else β)).map Score.neg
    let best' := match v with
      | none => best
      | some v => if best < v then v else best
    let α' := if α < best' then best' else α
    if α' < β then abLoop step G g soft β ms best' α' else best'

/-- Python `negamax_alphabeta(game, depth, max_duration, alpha, beta, soft)`. -/
def negamax_alphabeta (G : GameIF σ μ) (t : Int) :
    Nat → σ → Score → Score → Bool → Option Score
  | 0, g, _, _, _ =>
    if t < 0 then none
    else if G.winnerTurn g then some Score.negInf
    else some (Score.fin (-(G.getScore g)))
  | d + 1, g, α, β, soft =>
    if t < 0 then none
    else if G.winnerTurn g then some Score.negInf
    else if G.isFull g then some (Score.fin (-(G.getScore g)))
    else some (abLoop (fun s a bt => negamax_alphabeta G t d s a bt soft) G g soft β
        (G.sortedMoves g) Score.negInf α)

/-- The move loop of `negascout`: full child window while `window > 0`,
otherwise a null-window probe `(-alpha - 1, -alpha)` re-searched with the
full window when `alpha < value < beta`. -/
def nsLoop (step : σ → Score → Score → Int → Option Score) (G : GameIF σ μ)
    (g : σ) (soft : Bool) (β : Score) (w : Int) :
    List μ → Score → Score → Score
  | [], best, _ => best
  | m :: ms, best, α =>
    let s := G.doMove g m
    let v :=
      if 0 < w then
        (step s (if soft then β.neg else α) (if soft then α.neg else β) (w - 1)).map
          Score.neg
      else
        match (step s (if soft then α.negsub1 else α) (if soft then α.neg else β)
            (w - 1)).map Score.neg with
        | none => none
        | some pv =>
          if α < pv ∧ pv < β then
            (step s (if soft then β.neg else α) (if soft then α.neg else β)
                (w - 1)).map Score.neg
          else some pv
    let best' := match v with
      | none => best
      | some v => if best < v then v else best
    let α' := if α < best' then best' else α
    if α' < β then nsLoop step G g soft β w ms best' α' else best'

/-- Python `negascout(game, depth, max_duration, alpha, beta, soft, window)`.  A
negative budget does not return the `np.nan` sentinel: it sets `depth = 0`
and falls through to the terminal tests, whose heuristic leaf is
`game.get_score()` (not negated, unlike `negamax`). -/
def negascout (G : GameIF σ μ) (t : Int) :
    Nat → σ → Score → Score → Bool → Int → Option Score
  | 0, g, _, _, _, _ =>
    if G.winnerTurn g then some Score.negInf
    else some (Score.fin (G.getScore g))
  | d + 1, g, α, β, soft, w =>
    if t < 0 then
      if G.winnerTurn g then some Score.negInf
      else some (Score.fin (G.getScore g))
    else if G.winnerTurn g then some Score.negInf
    else if G.isFull g then some (Score.fin (G.getScore g))
    else some (nsLoop (fun s a bt w' => negascout G t d s a bt soft w') G g soft β w
        (G.sortedMoves g) Score.negInf α)

/-- The canonical position key `repr(game)`: grid contents plus last turn. -/
abbrev GameKey := List (List Nat) × Nat

/-- The caching variant's `set` of losing-position signatures. -/
abbrev CacheSet := List GameKey

/-- Python `if cache: cache.add(repr(game))` — Python truthiness: the add happens
only when the set is not `None` _and not empty_. -/
def cacheAdd (c? : Option CacheSet) (k : GameKey) : Option CacheSet :=
  match c? with
  | none => none
  | some c => if c = [] then some c else some (if k ∈ c then c else k :: c)

/-- Python `key in cache` guarded by `cache is not None`. -/
def cacheMem (c? : Option CacheSet) (k : GameKey) : Bool :=
  match c? with
  | none => false
  | some c => decide (k ∈ c)

/-- The move loop of `negamax_alphabeta_caching`, threading the mutable
cache set through the children. -/
def cacheLoop
    (step : σ → Score → Score → Option CacheSet → Option Score × Option CacheSet)
    (G : GameIF σ μ) (g : σ) (soft : Bool) (β : Score) :
    List μ → Score → Score → Option CacheSet → Score × Option CacheSet
  | [], best, _, c => (best, c)
  | m :: ms, best, α, c =>
    let r := step (G.doMove g m) (if soft then β.neg else α)
        (if soft then α.neg else β) c
    let best' := match r.1.map Score.neg with
      | none => best
      | some v => if best < v then v else best
    let α' := if α < best' then best' else α
    if α' < β then cacheLoop step G g soft β ms best' α' r.2 else (best', r.2)

/-- Python `negamax_alphabeta_caching(game, depth, max_duration, alpha, beta, soft,
cache)`: a cache hit short-circuits to `-win_score`; a freshly detected win
is recorded only behind the `if cache:` truthiness test. -/
def negamax_alphabeta_caching (G : GameIF σ μ) (t : Int) :
    Nat → σ → Score → Score → Bool → Option CacheSet →
      Option Score × Option CacheSet
  | 0, g, _, _, _, c? =>
    if t < 0 then (none, c?)
    else if cacheMem c? (G.rep g) then (some Score.negInf, c?)
    else if G.winnerTurn g then (some Score.negInf, cacheAdd c? (G.rep g))
    else (some (Score.fin (-(G.getScore g))), c?)
  | d + 1, g, α, β, soft, c? =>
    if t < 0 then (none, c?)
    else if cacheMem c? (G.rep g) then (some Score.negInf, c?)
    else if G.winnerTurn g then (some Score.negInf, cacheAdd c? (G.rep g))
    else if G.isFull g then (some (Score.fin (-(G.getScore g))), c?)
    else
      let r := cacheLoop
        (fun s a bt cc => negamax_alphabeta_caching G t d s a bt soft cc) G g soft β
        (G.sortedMoves g) Score.negInf α c?
      (some r.1, r.2)

/-- The transposition table: position key to `(value, flag, depth)`. -/
abbrev HashTable := List (GameKey × (Score × Int × Nat))

/-- First-match association lookup (`key in hash_` / `hash_[key]`). -/
def hlookup (h : HashTable) (k : GameKey) : Option (Score × Int × Nat) :=
  match h with
  | [] => none
  | (k', v) :: rest => if k' = k then some v else hlookup rest k

/-- Outcome of the transposition probe at entry. -/
inductive ProbeResult where
  | ret (v : Score)
  | cont (α β : Score)

/-- The entry probe of `negamax_alphabeta_hashing`: on a hit with
`hash_depth > depth`, an Exact flag returns the stored value, a bound flag
tightens `alpha`/`beta`, and a crossed window returns the stored value. -/
def hashProbe (k : GameKey) (d : Nat) (α β : Score) :
    Option HashTable → ProbeResult
  | none => ProbeResult.cont α β
  | some h =>
    match hlookup h k with
    | none => ProbeResult.cont α β
    | some (hv, hf, hd) =>
      if d < hd then
        if hf = HASH_FLAG_EXACT then ProbeResult.ret hv
        else
          let α' := if hf = HASH_FLAG_LOWER ∧ α < hv then hv else α
          let β' := if hf = HASH_FLAG_UPPER ∧ hv < β then hv else β
          if β' ≤ α' then ProbeResult.ret hv else ProbeResult.cont α' β'
      else ProbeResult.cont α β

/-- The move loop of `negamax_alphabeta_hashing`, threading the table. -/
def hashLoop
    (step : σ → Score → Score → Option HashTable → Option Score × Option HashTable)
    (G : GameIF σ μ) (g : σ) (soft : Bool) (β : Score) :
    List μ → Score → Score → Option HashTable → Score × Option HashTable
  | [], best, _, h => (best, h)
  | m :: ms, best, α, h =>
    let r := step (G.doMove g m) (if soft then β.neg else α)
        (if soft then α.neg else β) h
    let best' := match r.1.map Score.neg with
      | none => best
      | some v => if best < v then v else best
    let α' := if α < best' then best' else α
    if α' < β then hashLoop step G g soft β ms best' α' r.2 else (best', r.2)

/-- Python `negamax_alphabeta_hashing(game, depth, max_duration, alpha, beta, soft,
hash_)`: probe before the terminal tests; on the recursive path, store
`best_value` classified against the pre-probe `alpha_zero` and the
post-probe `beta`, tagged with this call's depth.  Its heuristic leaf is
`game.get_score()` (not negated). -/
def negamax_alphabeta_hashing (G : GameIF σ μ) (t : Int) :
    Nat → σ → Score → Score → Bool → Option HashTable →
      Option Score × Option HashTable
  | 0, g, α, β, _, h? =>
    if t < 0 then (none, h?)
    else
      match hashProbe (G.rep g) 0 α β h? with
      | ProbeResult.ret v => (some v, h?)
      | ProbeResult.cont _ _ =>
        if G.winnerTurn g then (some Score.negInf, h?)
        else (some (Score.fin (G.getScore g)), h?)
  | d + 1, g, α, β, soft, h? =>
    if t < 0 then (none, h?)
    else
      match hashProbe (G.rep g) (d + 1) α β h? with
      | ProbeResult.ret v => (some v, h?)
      | ProbeResult.cont α' β' =>
        if G.winnerTurn g then (some Score.negInf, h?)
        else if G.isFull g then (some (Score.fin (G.getScore g)), h?)
        else
          let r := hashLoop
            (fun s a bt hh => negamax_alphabeta_hashing G t d s a bt soft hh)
            G g soft β' (G.sortedMoves g) Score.negInf α' h?
          let flag := if r.1 ≤ α then HASH_FLAG_UPPER
            else if β' ≤ r.1 then HASH_FLAG_LOWER
            else HASH_FLAG_EXACT
          let h3 := match r.2 with
            | none => none
            | some hh => some ((G.rep g, (r.1, flag, d + 1)) :: hh)
          (some r.1, h3)

/-- The per-move loop of one iterative-deepening level in
`GameAiSearchTree.get_best_move`: state `(val, best_val, new_choices)`.
An `np.nan` value (`none`) fails both the `>` and the `==` test. -/
def gbmInner (G : GameIF σ μ) [DecidableEq μ]
    (func : σ → Nat → Int → Option Score) (g : σ) (depth : Nat) (t : Int) :
    List μ → Option Score × Score × List μ → Option Score × Score × List μ
  | [], st => st
  | m :: ms, (_, best, nc) =>
    let val := (func (G.doMove g m) depth t).map Score.neg
    let st' : Option Score × Score × List μ :=
      match val with
      | none => (none, best, nc)
      | some v =>
        if best < v then (some v, v, [m])
        else if v = best ∧ m ∉ nc then (some v, best, nc ++ [m])
        else (some v, best, nc)
    gbmInner G func g depth t ms st'

/-- The iterative-deepening loop of `get_best_move` over the depth range,
with state `(choices, best_val)`; commits a depth's choices only when its
last value is not the `nan` sentinel, and stops on a proven `±inf` value or
an exhausted budget. -/
def gbmOuter (G : GameIF σ μ) [DecidableEq μ]
    (func : σ → Nat → Int → Option Score) (g : σ) (t : Int) :
    List Nat → List μ × Score → List μ × Score
  | [], st => st
  | depth :: rest, (choices, best) =>
    let r := gbmInner G func g depth t (G.sortedMoves g) (some best, best, [])
    let choices' := if r.1 ≠ none ∧ r.2.2 ≠ [] then r.2.2 else choices
    if r.2.1 = Score.posInf ∨ r.2.1 = Score.negInf then (choices', r.2.1)
    else if t < 0 then (choices', r.2.1)
    else gbmOuter G func g t rest (choices', r.2.1)

/-- Python `GameAiSearchTree.get_best_move` (with `randomize=False`, the chosen
search variant abstracted as `func`; the verbose printing and the progress
callback are pure side channels).  `none` is the `IndexError` raised by the
final `choices[0]` when no candidate exists. -/
def get_best_move (G : GameIF σ μ) [DecidableEq μ]
    (func : σ → Nat → Int → Option Score) (g : σ) (t : Int) (maxDepth : Int) :
    Option μ :=
  let md : Int :=
    if maxDepth = 0 then 0
    else if maxDepth < 0 then (G.numMovesLeft g : Int) - (maxDepth + 1)
    else maxDepth
  let top : Int := max ((G.numMovesLeft g : Int)) md
  let depths := (List.range top.toNat).map (· + 1)
  let r := gbmOuter G func g t depths (G.sortedMoves g, Score.negInf)
  match r.1 with
  | [] => none
  | c :: _ => some c

/-! Section: List helper lemmas -/

theorem getD_set_self (l : List α) (i : Nat) (a d : α) (h : i < l.length) :
    (l.set i a).getD i d = a := by
  induction l generalizing i with
  | nil => simp at h
  | cons x xs ih =>
    cases i with
    | zero => rfl
    | succ n => simpa using ih n (by simpa using h)

theorem getD_set_ne (l : List α) {i j : Nat} (a d : α) (h : i ≠ j) :
    (l.set i a).getD j d = l.getD j d := by
  induction l generalizing i j with
  | nil => rfl
  | cons x xs ih =>
    cases i with
    | zero => cases j with
      | zero => exact absurd rfl h
      | succ n => rfl
    | succ n => cases j with
      | zero => rfl
      | succ k => simpa using ih (by omega)

theorem set_getD_self (l : List α) (i : Nat) (d : α) :
    l.set i (l.getD i d) = l := by
  induction l generalizing i with
  | nil => rfl
  | cons x xs ih =>
    cases i with
    | zero => rfl
    | succ n => simpa using ih n

theorem getD_mem (l : List α) (i : Nat) (d : α) (h : i < l.length) :
    l.getD i d ∈ l := by
  induction l generalizing i with
  | nil => simp at h
  | cons x xs ih =>
    cases i with
    | zero => exact List.mem_cons_self x xs
    | succ n => exact List.mem_cons_of_mem x (ih n (by simpa using h))

theorem forall_mem_set {p : α → Prop} :
    ∀ (l : List α) (i : Nat) (a : α), (∀ x ∈ l, p x) → p a →
      ∀ x ∈ l.set i a, p x
  | _ :: _, 0, a, h, ha, y, hy => by
    rcases List.mem_cons.mp hy with rfl | hy
    · exact ha
    · exact h y (List.mem_cons_of_mem _ hy)
  | x :: xs, n + 1, a, h, ha, y, hy => by
    rcases List.mem_cons.mp hy with rfl | hy
    · exact h _ (List.mem_cons_self _ _)
    · exact forall_mem_set xs n a (fun z hz => h z (List.mem_cons_of_mem x hz)) ha y hy
  | [], _, _, h, _, y, hy => by simp at hy

/-! Section: Move/unmove symmetry (C1) -/

theorem cell_setCell_eq' (mat : List (List Nat)) {r c : Nat} (v : Nat)
    (hr : r < mat.length) (hc : c < (mat.getD r []).length) :
    ((Board.setCell mat r c v).getD r []).getD c 0 = v := by
  unfold Board.setCell
  rw [getD_set_self _ _ _ _ (by simpa using hr), getD_set_self _ _ _ _ hc]

theorem cell_setCell_ne (mat : List (List Nat)) {r c r' c' : Nat} (v : Nat)
    (h : r ≠ r' ∨ c ≠ c') :
    ((Board.setCell mat r c v).getD r' []).getD c' 0 =
      (mat.getD r' []).getD c' 0 := by
  unfold Board.setCell
  by_cases hrr : r = r'
  · subst hrr
    rcases h with h | h
    · exact absurd rfl h
    · rcases lt_or_le r mat.length with hlen | hlen
      · rw [getD_set_self _ _ _ _ (by simpa using hlen), getD_set_ne _ _ _ h]
      · rw [List.set_eq_of_length_le hlen]
  · rw [getD_set_ne _ _ _ hrr]

theorem npIndex_of_nonneg_lt {n : Nat} {i : Int} (h0 : 0 ≤ i) (h : i < n) :
    npIndex n i = some i.toNat := by
  unfold npIndex
  rw [if_pos ⟨h0, h⟩]

theorem npIndex_neg_one {n : Nat} (h : 1 ≤ n) : npIndex n (-1) = some (n - 1) := by
  unfold npIndex
  rw [if_neg (by omega), if_pos (by omega)]
  congr 1
  omega

namespace Board

theorem mem_availMoves {b : Board} {m : Int × Int} :
    m ∈ b.availMoves ↔
      ∃ i j : Nat, i < b.rows ∧ j < b.cols ∧ b.cellN i j = 0 ∧
        m = ((i : Int), (j : Int)) := by
  simp only [availMoves, List.mem_flatMap, List.mem_map, List.mem_filter,
    List.mem_range, decide_eq_true_eq]
  aesop

theorem nextTurn_ne_zero {t : Nat} (h : t = 1 ∨ t = 2) : nextTurn t ≠ 0 := by
  rcases h with rfl | rfl <;> decide

theorem nextTurn_nextTurn {t : Nat} (h : t = 1 ∨ t = 2) :
    nextTurn (nextTurn t) = t := by
  rcases h with rfl | rfl <;> decide

theorem row_length {b : Board} (hWF : b.WF) {i : Nat} (hi : i < b.rows) :
    (b.matrix.getD i []).length = b.cols :=
  hWF.2 _ (getD_mem _ _ _ (by rw [hWF.1]; exact hi))

theorem setCell_setCell (mat : List (List Nat)) (r c v w : Nat) :
    setCell (setCell mat r c v) r c w = setCell mat r c w := by
  unfold setCell
  rcases lt_or_le r mat.length with h | h
  · rw [getD_set_self _ _ _ _ (by simpa using h), List.set_set, List.set_set]
  · have h1 : mat.set r ((mat.getD r []).set c v) = mat :=
      List.set_eq_of_length_le h
    rw [h1]

theorem setCell_cancel (mat : List (List Nat)) (r c : Nat) :
    setCell mat r c ((mat.getD r []).getD c 0) = mat := by
  unfold setCell
  rw [set_getD_self, set_getD_self]

/-- C1, plain-board half: an available move applied then undone restores the
board exactly. -/
theorem do_then_undo (b : Board) (m : Int × Int) (hWF : b.WF)
    (hturn : b.turn = 1 ∨ b.turn = 2) (hm : m ∈ b.availMoves) :
    (b.doMove m).1 = true ∧ (b.doMove m).2.undoMove m = (true, b) := by
  obtain ⟨i, j, hi, hj, hc, rfl⟩ := mem_availMoves.mp hm
  have htoNat1 : ((i : Int), (j : Int)).1.toNat = i := Int.toNat_natCast i
  have htoNat2 : ((i : Int), (j : Int)).2.toNat = j := Int.toNat_natCast j
  have hdo : b.doMove ((i : Int), (j : Int)) =
      (true, { b with turn := nextTurn b.turn,
                      matrix := setCell b.matrix i j (nextTurn b.turn) }) := by
    rw [doMove, if_pos hm, htoNat1, htoNat2]
  refine ⟨by rw [hdo], ?_⟩
  rw [hdo]
  set b₁ : Board := { b with turn := nextTurn b.turn,
                             matrix := setCell b.matrix i j (nextTurn b.turn) }
  have hvalid : b₁.isValidMoveB ((i : Int), (j : Int)) = true := by
    simp only [isValidMoveB, Bool.and_eq_true, decide_eq_true_eq]
    constructor
    · exact ⟨Int.natCast_nonneg i, by exact_mod_cast hi⟩
    · exact ⟨Int.natCast_nonneg j, by exact_mod_cast hj⟩
  have hrow : i < b.matrix.length := by rw [hWF.1]; exact hi
  have hcol : j < (b.matrix.getD i []).length := by rw [row_length hWF hi]; exact hj
  have hcell : b₁.cellN i j = nextTurn b.turn := by
    show ((setCell b.matrix i j (nextTurn b.turn)).getD i []).getD j 0 = _
    unfold setCell
    rw [getD_set_self _ _ _ _ (by simpa using hrow),
      getD_set_self _ _ _ _ (by simpa using hcol)]
  have hcond : b₁.isValidMoveB ((i : Int), (j : Int)) ∧
      b₁.cellN ((i : Int)).toNat ((j : Int)).toNat ≠ 0 := by
    refine ⟨hvalid, ?_⟩
    rw [Int.toNat_natCast, Int.toNat_natCast, hcell]
    exact nextTurn_ne_zero hturn
  rw [undoMove, if_pos hcond]
  have hmat : setCell b₁.matrix ((i : Int)).toNat ((j : Int)).toNat 0 = b.matrix := by
    rw [Int.toNat_natCast, Int.toNat_natCast]
    show setCell (setCell b.matrix i j (nextTurn b.turn)) i j 0 = b.matrix
    rw [setCell_setCell]
    have hc' : (b.matrix.getD i []).getD j 0 = 0 := hc
    calc setCell b.matrix i j 0
        = setCell b.matrix i j ((b.matrix.getD i []).getD j 0) := by rw [hc']
      _ = b.matrix := setCell_cancel _ _ _
  have hturn' : nextTurn b₁.turn = b.turn := nextTurn_nextTurn hturn
  simp only [Prod.mk.injEq, true_and]
  cases b
  simp_all [b₁]

end Board

namespace BoardG

theorem mem_availMovesG {b : BoardG} {c : Int} :
    c ∈ b.availMovesG ↔
      ∃ j : Nat, j < b.cols ∧ b.cellN 0 j = 0 ∧ c = (j : Int) := by
  simp only [availMovesG, List.mem_map, List.mem_filter, List.mem_range,
    decide_eq_true_eq]
  aesop

/-- C1, gravity half: on an invariant-respecting gravity board, a move in an
available column dropped then undone restores the board exactly. -/
theorem do_then_undoG (b : BoardG) (c : Int) (hInv : b.InvG)
    (hturn : b.turn = 1 ∨ b.turn = 2) (hc : c ∈ b.availMovesG) :
    ∃ b₁, b.doMoveG c = some (true, b₁) ∧ b₁.undoMoveG c = some (true, b) := by
  obtain ⟨hr1, hmlen, hrowlen, hhlen, hcols⟩ := hInv
  obtain ⟨j, hj, hcell0, rfl⟩ := mem_availMovesG.mp hc
  obtain ⟨h0, hle, hiff⟩ := hcols j hj
  have hlt : b.heights.getD j 0 < (b.rows : Int) := by
    by_contra hge
    exact (hiff 0 hr1).mpr (by omega) hcell0
  have hnp : npIndex b.rows ((b.rows : Int) - b.heights.getD j 0 - 1) =
      some ((b.rows : Int) - b.heights.getD j 0 - 1).toNat :=
    npIndex_of_nonneg_lt (by omega) (by omega)
  have hrnV : ((((b.rows : Int) - b.heights.getD j 0 - 1).toNat : Nat) : Int) =
      (b.rows : Int) - b.heights.getD j 0 - 1 := by omega
  have hrnlt : ((b.rows : Int) - b.heights.getD j 0 - 1).toNat < b.rows := by omega
  have hdo : b.doMoveG (j : Int) = some (true,
      { b with turn := Board.nextTurn b.turn,
               matrix := Board.setCell b.matrix
                 ((b.rows : Int) - b.heights.getD j 0 - 1).toNat j
                 (Board.nextTurn b.turn),
               heights := b.heights.set j (b.heights.getD j 0 + 1) }) := by
    unfold doMoveG
    rw [if_pos hc]
    simp only [Int.toNat_natCast]
    rw [hnp]
  refine ⟨_, hdo, ?_⟩
  set rn : Nat := ((b.rows : Int) - b.heights.getD j 0 - 1).toNat with hrn
  set b₁ : BoardG :=
      { b with turn := Board.nextTurn b.turn,
               matrix := Board.setCell b.matrix rn j (Board.nextTurn b.turn),
               heights := b.heights.set j (b.heights.getD j 0 + 1) } with hb₁
  have hrowlen' : (b.matrix.getD rn []).length = b.cols :=
    hrowlen _ (getD_mem _ _ _ (by rw [hmlen]; exact hrnlt))
  have hval : b₁.isValidMoveG (j : Int) = true := by
    simp only [isValidMoveG, decide_eq_true_eq]
    exact ⟨Int.natCast_nonneg j, by exact_mod_cast hj⟩
  have hh₁ : b₁.heights.getD j 0 = b.heights.getD j 0 + 1 :=
    getD_set_self _ _ _ _ (by rw [hhlen]; exact hj)
  have hcelllast : b₁.cellN (b.rows - 1) j ≠ 0 := by
    by_cases hz : b.heights.getD j 0 = 0
    · have hreq : rn = b.rows - 1 := by omega
      show ((Board.setCell b.matrix rn j (Board.nextTurn b.turn)).getD
          (b.rows - 1) []).getD j 0 ≠ 0
      rw [← hreq, cell_setCell_eq' _ _ (by rw [hmlen]; exact hrnlt)
        (by rw [hrowlen']; exact hj)]
      exact Board.nextTurn_ne_zero hturn
    · have hrne : rn ≠ b.rows - 1 := by omega
      show ((Board.setCell b.matrix rn j (Board.nextTurn b.turn)).getD
          (b.rows - 1) []).getD j 0 ≠ 0
      rw [cell_setCell_ne _ _ (Or.inl hrne)]
      exact (hiff (b.rows - 1) (by omega)).mpr (by omega)
  have hnp2 : npIndex b₁.rows ((b₁.rows : Int) - b₁.heights.getD j 0) = some rn := by
    show npIndex b.rows ((b.rows : Int) - b₁.heights.getD j 0) = some rn
    rw [hh₁]
    have : (b.rows : Int) - (b.heights.getD j 0 + 1) =
        (b.rows : Int) - b.heights.getD j 0 - 1 := by ring
    rw [this, hnp]
  have hmat : Board.setCell b₁.matrix rn j 0 = b.matrix := by
    show Board.setCell (Board.setCell b.matrix rn j (Board.nextTurn b.turn)) rn j 0
        = b.matrix
    rw [Board.setCell_setCell]
    have hcell : (b.matrix.getD rn []).getD j 0 = 0 := by
      have := (hiff rn hrnlt)
      by_contra hne
      have := this.mp hne
      omega
    calc Board.setCell b.matrix rn j 0
        = Board.setCell b.matrix rn j ((b.matrix.getD rn []).getD j 0) := by
          rw [hcell]
      _ = b.matrix := Board.setCell_cancel _ _ _
  have hheights : (b₁.heights).set j (b₁.heights.getD j 0 - 1) = b.heights := by
    show (b.heights.set j (b.heights.getD j 0 + 1)).set j (b₁.heights.getD j 0 - 1)
        = b.heights
    rw [hh₁, List.set_set]
    have : b.heights.getD j 0 + 1 - 1 = b.heights.getD j 0 := by ring
    rw [this, set_getD_self]
  have hturn2 : Board.nextTurn b₁.turn = b.turn := Board.nextTurn_nextTurn hturn
  have hb₂ : (⟨b₁.rows, b₁.cols, b₁.numWin, Board.setCell b₁.matrix rn j 0,
      Board.nextTurn b₁.turn, b₁.heights.set j (b₁.heights.getD j 0 - 1)⟩ :
        BoardG) = b := by
    rw [hmat, hheights, hturn2]
  unfold undoMoveG
  simp only [Int.toNat_natCast]
  rw [if_pos (by exact_mod_cast hval), if_neg (show ¬b₁.rows = 0 by
    show ¬b.rows = 0; omega), if_pos hcelllast, hnp2]
  exact congrArg (fun x => some (true, x)) hb₂

/-! Section: The column-heights invariant (C8) -/

theorem getD_replicate {n : Nat} (a : α) {i : Nat} (d : α) (h : i < n) :
    (List.replicate n a).getD i d = a := by
  rw [List.getD_eq_getElem?_getD, List.getElem?_replicate, if_pos h]
  rfl

/-- Reset establishes the invariant. -/
theorem InvG_mk (rows cols numWin : Nat) (h : 1 ≤ rows) :
    (mkBoardG rows cols numWin).InvG := by
  have hcell : ∀ r c : Nat, (mkBoardG rows cols numWin).cellN r c = 0 := by
    intro r c
    show ((List.replicate rows (List.replicate cols 0)).getD r []).getD c 0 = 0
    rcases lt_or_le r rows with hr | hr
    · rw [getD_replicate _ _ hr]
      rcases lt_or_le c cols with hcc | hcc
      · rw [getD_replicate _ _ hcc]
      · rw [List.getD_eq_default _ _ (by simpa using hcc)]
    · have houter : (List.replicate rows (List.replicate cols 0)).getD r [] = [] :=
        List.getD_eq_default _ _ (by simpa using hr)
      rw [houter]
      rfl
  refine ⟨h, by simp [mkBoardG], ?_, by simp [mkBoardG], ?_⟩
  · intro row hrow
    rw [List.eq_of_mem_replicate (show row ∈ List.replicate rows
      (List.replicate cols 0) from hrow)]
    simp [mkBoardG]
  · intro c hc
    have hgd : (mkBoardG rows cols numWin).heights.getD c 0 = 0 :=
      getD_replicate _ _ hc
    refine ⟨by rw [hgd], by rw [hgd]; positivity, ?_⟩
    intro r hr
    rw [hgd]
    simp only [hcell r c, ne_eq, not_true_eq_false, false_iff, not_le, sub_zero]
    exact_mod_cast hr

theorem nextTurn_mem {t : Nat} (h : t = 1 ∨ t = 2) :
    Board.nextTurn t = 1 ∨ Board.nextTurn t = 2 := by
  rcases h with rfl | rfl <;> simp [Board.nextTurn]

/-- Evaluated form of a successful `do_move`. -/
theorem doMoveG_eq_of_avail {b : BoardG} {j : Nat} (hc : (j : Int) ∈ b.availMovesG)
    {rn : Nat}
    (hnp : npIndex b.rows ((b.rows : Int) - b.heights.getD j 0 - 1) = some rn) :
    b.doMoveG (j : Int) = some (true,
      { b with turn := Board.nextTurn b.turn,
               matrix := Board.setCell b.matrix rn j (Board.nextTurn b.turn),
               heights := b.heights.set j (b.heights.getD j 0 + 1) }) := by
  rw [doMoveG, if_pos hc]
  simp only [Int.toNat_natCast]
  rw [hnp]

theorem doMoveG_eq_of_not_avail {b : BoardG} {c : Int} (hc : c ∉ b.availMovesG) :
    b.doMoveG c = some (false, b) := by
  rw [doMoveG, if_neg hc]

/-- Evaluated form of a successful `undo_move`. -/
theorem undoMoveG_eq_success {b : BoardG} {c : Int} (hval : b.isValidMoveG c)
    (hrows : ¬b.rows = 0) (hbot : b.cellN (b.rows - 1) c.toNat ≠ 0)
    {rn : Nat}
    (hnp : npIndex b.rows ((b.rows : Int) - b.heights.getD c.toNat 0) = some rn) :
    b.undoMoveG c = some (true,
      { b with turn := Board.nextTurn b.turn,
               matrix := Board.setCell b.matrix rn c.toNat 0,
               heights := b.heights.set c.toNat (b.heights.getD c.toNat 0 - 1) }) := by
  rw [undoMoveG, if_pos hval, if_neg hrows, if_pos hbot, hnp]

/-- Python `do_move` preserves the invariant (and turn membership). -/
theorem InvG_doMove {b b' : BoardG} {res : Bool} {c : Int}
    (hInv : b.InvG) (hturn : b.turn = 1 ∨ b.turn = 2)
    (h : b.doMoveG c = some (res, b')) :
    b'.InvG ∧ (b'.turn = 1 ∨ b'.turn = 2) := by
  obtain ⟨hr1, hmlen, hrowlen, hhlen, hcols⟩ := hInv
  by_cases hc : c ∈ b.availMovesG
  · obtain ⟨j, hj, hcell0, rfl⟩ := mem_availMovesG.mp hc
    obtain ⟨h0, hle, hiff⟩ := hcols j hj
    have hlt : b.heights.getD j 0 < (b.rows : Int) := by
      by_contra hge
      exact (hiff 0 hr1).mpr (by omega) hcell0
    set rn : Nat := ((b.rows : Int) - b.heights.getD j 0 - 1).toNat with hrn
    have hnp : npIndex b.rows ((b.rows : Int) - b.heights.getD j 0 - 1) = some rn :=
      npIndex_of_nonneg_lt (by omega) (by omega)
    rw [doMoveG_eq_of_avail hc hnp] at h
    have h2 := Option.some.inj h
    injection h2 with hres hb
    subst hres
    subst hb
    have hrnlt : rn < b.rows := by omega
    have hrowlen' : (b.matrix.getD rn []).length = b.cols :=
      hrowlen _ (getD_mem _ _ _ (by rw [hmlen]; exact hrnlt))
    have hnt := nextTurn_mem hturn
    refine ⟨⟨hr1, by simp only [Board.setCell, List.length_set]; exact hmlen, ?_,
      by rw [List.length_set]; exact hhlen, ?_⟩, hnt⟩
    · exact forall_mem_set _ _ _ hrowlen
        (by rw [List.length_set]; exact hrowlen')
    · intro c' hc'
      dsimp only at hc' ⊢
      by_cases hcj : c' = j
      · subst hcj
        have hgd : (b.heights.set c' (b.heights.getD c' 0 + 1)).getD c' 0 =
            b.heights.getD c' 0 + 1 :=
          getD_set_self _ _ _ _ (by rw [hhlen]; exact hc')
        refine ⟨by rw [hgd]; omega, by rw [hgd]; push_cast; omega, ?_⟩
        intro r hr
        rw [hgd]
        show ((Board.setCell b.matrix rn c' (Board.nextTurn b.turn)).getD r []).getD
            c' 0 ≠ 0 ↔ _
        by_cases hrr : rn = r
        · subst hrr
          rw [cell_setCell_eq' _ _ (by rw [hmlen]; exact hrnlt)
            (by rw [hrowlen']; exact hc')]
          have hnz : Board.nextTurn b.turn ≠ 0 := Board.nextTurn_ne_zero hturn
          simp only [ne_eq, hnz, not_false_eq_true, true_iff]
          omega
        · rw [cell_setCell_ne _ _ (Or.inl hrr)]
          have hiffr := hiff r hr
          constructor
          · intro hne
            have := hiffr.mp hne
            omega
          · intro hge
            apply hiffr.mpr
            omega
      · obtain ⟨h0', hle', hiff'⟩ := hcols c' hc'
        have hgd : (b.heights.set j (b.heights.getD j 0 + 1)).getD c' 0 =
            b.heights.getD c' 0 := getD_set_ne _ _ _ (fun e => hcj e.symm)
        refine ⟨by rw [hgd]; exact h0', by rw [hgd]; exact hle', ?_⟩
        intro r hr
        rw [hgd]
        show ((Board.setCell b.matrix rn j (Board.nextTurn b.turn)).getD r []).getD
            c' 0 ≠ 0 ↔ _
        rw [cell_setCell_ne _ _ (Or.inr (fun e => hcj e.symm))]
        exact hiff' r hr
  · rw [doMoveG, if_neg hc] at h
    obtain ⟨rfl, rfl⟩ : res = false ∧ b = b' := by simpa [Prod.ext_iff] using h
    exact ⟨⟨hr1, hmlen, hrowlen, hhlen, hcols⟩, hturn⟩

/-- Python `undo_move` preserves the invariant (and turn membership). -/
theorem InvG_undoMove {b b' : BoardG} {res : Bool} {c : Int}
    (hInv : b.InvG) (hturn : b.turn = 1 ∨ b.turn = 2)
    (h : b.undoMoveG c = some (res, b')) :
    b'.InvG ∧ (b'.turn = 1 ∨ b'.turn = 2) := by
  obtain ⟨hr1, hmlen, hrowlen, hhlen, hcols⟩ := hInv
  by_cases hval : b.isValidMoveG c
  · have hj : c.toNat < b.cols ∧ c = (c.toNat : Int) := by
      simp only [isValidMoveG, decide_eq_true_eq] at hval
      omega
    set j : Nat := c.toNat with hjdef
    obtain ⟨hjc, hcast⟩ := hj
    obtain ⟨h0, hle, hiff⟩ := hcols j hjc
    by_cases hbot : b.cellN (b.rows - 1) j ≠ 0
    · have hge1 : 1 ≤ b.heights.getD j 0 := by
        have := (hiff (b.rows - 1) (by omega)).mp hbot
        omega
      set rn : Nat := ((b.rows : Int) - b.heights.getD j 0).toNat with hrn
      have hnp : npIndex b.rows ((b.rows : Int) - b.heights.getD j 0) = some rn :=
        npIndex_of_nonneg_lt (by omega) (by omega)
      rw [undoMoveG_eq_success hval (by omega) hbot hnp] at h
      have h2 := Option.some.inj h
      injection h2 with hres hb
      subst hres
      subst hb
      have hrnlt : rn < b.rows := by omega
      have hnt := nextTurn_mem hturn
      refine ⟨⟨hr1, by simp only [Board.setCell, List.length_set]; exact hmlen, ?_,
        by rw [List.length_set]; exact hhlen, ?_⟩, hnt⟩
      · refine forall_mem_set _ _ _ hrowlen ?_
        rw [List.length_set]
        exact hrowlen _ (getD_mem _ _ _ (by rw [hmlen]; exact hrnlt))
      · intro c' hc'
        dsimp only at hc' ⊢
        by_cases hcj : c' = j
        · subst hcj
          have hgd : (b.heights.set j (b.heights.getD j 0 - 1)).getD j 0 =
              b.heights.getD j 0 - 1 :=
            getD_set_self _ _ _ _ (by rw [hhlen]; exact hjc)
          refine ⟨by rw [hgd]; omega, by rw [hgd]; omega, ?_⟩
          intro r hr
          rw [hgd]
          show ((Board.setCell b.matrix rn j 0).getD r []).getD j 0 ≠ 0 ↔ _
          by_cases hrr : rn = r
          · subst hrr
            rw [cell_setCell_eq' _ _ (by rw [hmlen]; exact hrnlt)
              (by rw [hrowlen _ (getD_mem _ _ _ (by rw [hmlen]; exact hrnlt))]
                  exact hjc)]
            simp only [ne_eq, not_true_eq_false, false_iff, not_le]
            omega
          · rw [cell_setCell_ne _ _ (Or.inl hrr)]
            have hiffr := hiff r hr
            constructor
            · intro hne
              have := hiffr.mp hne
              omega
            · intro hge
              apply hiffr.mpr
              omega
        · obtain ⟨h0', hle', hiff'⟩ := hcols c' hc'
          have hgd : (b.heights.set j (b.heights.getD j 0 - 1)).getD c' 0 =
              b.heights.getD c' 0 := getD_set_ne _ _ _ (fun e => hcj e.symm)
          refine ⟨by rw [hgd]; exact h0', by rw [hgd]; exact hle', ?_⟩
          intro r hr
          rw [hgd]
          show ((Board.setCell b.matrix rn j 0).getD r []).getD c' 0 ≠ 0 ↔ _
          rw [cell_setCell_ne _ _ (Or.inr (fun e => hcj e.symm))]
          exact hiff' r hr
    · rw [undoMoveG, if_pos hval, if_neg (by omega : ¬b.rows = 0),
        if_neg hbot] at h
      obtain ⟨rfl, rfl⟩ : res = false ∧ b = b' := by simpa [Prod.ext_iff] using h
      exact ⟨⟨hr1, hmlen, hrowlen, hhlen, hcols⟩, hturn⟩
  · rw [undoMoveG, if_neg hval] at h
    obtain ⟨rfl, rfl⟩ : res = false ∧ b = b' := by simpa [Prod.ext_iff] using h
    exact ⟨⟨hr1, hmlen, hrowlen, hhlen, hcols⟩, hturn⟩

/-- Every reachable gravity board satisfies the invariant. -/
theorem ReachG_inv {b : BoardG} (h : b.ReachG) :
    b.InvG ∧ (b.turn = 1 ∨ b.turn = 2) := by
  induction h with
  | init rows cols numWin h => exact ⟨InvG_mk rows cols numWin h, Or.inr rfl⟩
  | do_step _ hmove ih => exact InvG_doMove ih.1 ih.2 hmove
  | undo_step _ hmove ih => exact InvG_undoMove ih.1 ih.2 hmove

theorem countP_range_le (n m : Nat) (hm : m ≤ n) :
    ((List.range n).countP fun r => decide (m ≤ r)) = n - m := by
  induction n with
  | zero => simp
  | succ n ih =>
    rw [List.range_succ, List.countP_append]
    by_cases hmn : m ≤ n
    · rw [ih hmn]
      simp only [List.countP_cons, List.countP_nil, decide_eq_true_eq]
      rw [if_pos hmn]
      omega
    · have hmeq : m = n + 1 := by omega
      subst hmeq
      have hz : ((List.range n).countP fun r => decide (n + 1 ≤ r)) = 0 := by
        rw [List.countP_eq_zero]
        intro a ha
        simp only [decide_eq_true_eq]
        have := List.mem_range.mp ha
        omega
      rw [hz]
      simp only [List.countP_cons, List.countP_nil, decide_eq_true_eq]
      rw [if_neg (by omega)]
      omega

/-- Under the invariant, the stored height is the column's piece count. -/
theorem InvG_heights_eq_colCount {b : BoardG} (hInv : b.InvG) {c : Nat}
    (hc : c < b.cols) : b.heights.getD c 0 = (b.colCount c : Int) := by
  obtain ⟨hr1, hmlen, hrowlen, hhlen, hcols⟩ := hInv
  obtain ⟨h0, hle, hiff⟩ := hcols c hc
  have hcongr : ((List.range b.rows).countP fun r => decide (b.cellN r c ≠ 0)) =
      ((List.range b.rows).countP fun r =>
        decide (b.rows - (b.heights.getD c 0).toNat ≤ r)) := by
    apply List.countP_congr
    intro r hrmem
    have hr := List.mem_range.mp hrmem
    simp only [decide_eq_true_eq]
    constructor
    · intro hne
      have := (hiff r hr).mp hne
      omega
    · intro hge
      apply (hiff r hr).mpr
      omega
  have hcount := countP_range_le b.rows (b.rows - (b.heights.getD c 0).toNat)
    (by omega)
  show b.heights.getD c 0 =
    (((List.range b.rows).countP fun r => decide (b.cellN r c ≠ 0)) : Int)
  rw [hcongr, hcount]
  omega

/-- Python `do_move` bumps exactly the moved column's height on success and leaves
the heights untouched on failure. -/
theorem doMoveG_heights_effect {b b' : BoardG} {res : Bool} {c : Int}
    (hInv : b.InvG) (h : b.doMoveG c = some (res, b')) :
    (res = true → b'.heights.getD c.toNat 0 = b.heights.getD c.toNat 0 + 1) ∧
    (res = false → b'.heights = b.heights) := by
  obtain ⟨hr1, hmlen, hrowlen, hhlen, hcols⟩ := hInv
  by_cases hc : c ∈ b.availMovesG
  · obtain ⟨j, hj, hcell0, rfl⟩ := mem_availMovesG.mp hc
    obtain ⟨h0, hle, hiff⟩ := hcols j hj
    have hlt : b.heights.getD j 0 < (b.rows : Int) := by
      by_contra hge
      exact (hiff 0 hr1).mpr (by omega) hcell0
    have hnp : npIndex b.rows ((b.rows : Int) - b.heights.getD j 0 - 1) =
        some ((b.rows : Int) - b.heights.getD j 0 - 1).toNat :=
      npIndex_of_nonneg_lt (by omega) (by omega)
    rw [doMoveG_eq_of_avail hc hnp] at h
    have h2 := Option.some.inj h
    injection h2 with hres hb
    subst hres
    subst hb
    refine ⟨fun _ => ?_, fun hfalse => by simp at hfalse⟩
    simp only [Int.toNat_natCast]
    exact getD_set_self _ _ _ _ (by rw [hhlen]; exact hj)
  · rw [doMoveG_eq_of_not_avail hc] at h
    have h2 := Option.some.inj h
    injection h2 with hres hb
    subst hres
    subst hb
    exact ⟨fun htrue => by simp at htrue, fun _ => rfl⟩

/-- Python `undo_move` drops exactly the moved column's height on success and leaves
the heights untouched on failure. -/
theorem undoMoveG_heights_effect {b b' : BoardG} {res : Bool} {c : Int}
    (hInv : b.InvG) (h : b.undoMoveG c = some (res, b')) :
    (res = true → b'.heights.getD c.toNat 0 = b.heights.getD c.toNat 0 - 1) ∧
    (res = false → b'.heights = b.heights) := by
  obtain ⟨hr1, hmlen, hrowlen, hhlen, hcols⟩ := hInv
  by_cases hval : b.isValidMoveG c
  · have hj : c.toNat < b.cols := by
      simp only [isValidMoveG, decide_eq_true_eq] at hval
      omega
    obtain ⟨h0, hle, hiff⟩ := hcols c.toNat hj
    by_cases hbot : b.cellN (b.rows - 1) c.toNat ≠ 0
    · have hge1 : 1 ≤ b.heights.getD c.toNat 0 := by
        have := (hiff (b.rows - 1) (by omega)).mp hbot
        omega
      have hnp : npIndex b.rows ((b.rows : Int) - b.heights.getD c.toNat 0) =
          some ((b.rows : Int) - b.heights.getD c.toNat 0).toNat :=
        npIndex_of_nonneg_lt (by omega) (by omega)
      rw [undoMoveG_eq_success hval (by omega) hbot hnp] at h
      have h2 := Option.some.inj h
      injection h2 with hres hb
      subst hres
      subst hb
      refine ⟨fun _ => ?_, fun hfalse => by simp at hfalse⟩
      exact getD_set_self _ _ _ _ (by rw [hhlen]; exact hj)
    · rw [undoMoveG, if_pos hval, if_neg (by omega : ¬b.rows = 0),
        if_neg hbot] at h
      have h2 := Option.some.inj h
      injection h2 with hres hb
      subst hres
      subst hb
      exact ⟨fun htrue => by simp at htrue, fun _ => rfl⟩
  · rw [undoMoveG, if_neg hval] at h
    have h2 := Option.some.inj h
    injection h2 with hres hb
    subst hres
    subst hb
    exact ⟨fun htrue => by simp at htrue, fun _ => rfl⟩

end BoardG

/-! Section: Alpha-beta equals plain negamax (C2): fail-soft correctness -/

/-- The value plain `negamax` computes (meaningful when the budget is not
negative, where `negamax` always returns `some`). -/
def nmv (G : GameIF σ μ) (t : Int) (d : Nat) (g : σ) : Score :=
  (negamax G t d g).getD Score.negInf

theorem negamax_isSome (G : GameIF σ μ) {t : Int} (h : 0 ≤ t) (d : Nat) (g : σ) :
    ∃ v, negamax G t d g = some v := by
  have ht : ¬t < 0 := not_lt.mpr h
  cases d with
  | zero =>
    rw [negamax, if_neg ht]
    split
    · exact ⟨_, rfl⟩
    · exact ⟨_, rfl⟩
  | succ d =>
    rw [negamax, if_neg ht]
    split
    · exact ⟨_, rfl⟩
    · split
      · exact ⟨_, rfl⟩
      · exact ⟨_, rfl⟩

theorem negamax_eq_nmv (G : GameIF σ μ) {t : Int} (h : 0 ≤ t) (d : Nat) (g : σ) :
    negamax G t d g = some (nmv G t d g) := by
  obtain ⟨v, hv⟩ := negamax_isSome G h d g
  rw [nmv, hv]
  rfl

theorem max_negInf (x : Score) : max x Score.negInf = x :=
  max_eq_left (Score.negInf_le x)

theorem foldl_max_factor (f : μ → Score) :
    ∀ (ms : List μ) (x : Score),
      ms.foldl (fun a m => max a (f m)) x =
        max x (ms.foldl (fun a m => max a (f m)) Score.negInf) := by
  intro ms
  induction ms with
  | nil => intro x; exact (max_negInf x).symm
  | cons m ms ih =>
    intro x
    rw [List.foldl_cons, List.foldl_cons, ih (max x (f m)),
      ih (max Score.negInf (f m))]
    rw [max_comm Score.negInf (f m), max_negInf, max_assoc]

theorem foldl_max_mono (f : μ → Score) :
    ∀ (ms : List μ) {x y : Score}, x ≤ y →
      ms.foldl (fun a m => max a (f m)) x ≤ ms.foldl (fun a m => max a (f m)) y := by
  intro ms
  induction ms with
  | nil => intro x y hxy; exact hxy
  | cons m ms ih =>
    intro x y hxy
    rw [List.foldl_cons, List.foldl_cons]
    exact ih (max_le_max hxy le_rfl)

theorem le_foldl_max (f : μ → Score) :
    ∀ (ms : List μ) (x : Score), x ≤ ms.foldl (fun a m => max a (f m)) x := by
  intro ms x
  rw [foldl_max_factor]
  exact le_max_left _ _

/-- The plain negamax move loop is a fold of `max` over the children's
negated values. -/
theorem nmLoop_eq_fold (G : GameIF σ μ) (g : σ) (step : σ → Option Score)
    (f : σ → Score) (hstep : ∀ s, step s = some (f s)) :
    ∀ (ms : List μ) (best : Score),
      nmLoop step G g ms best =
        ms.foldl (fun acc m => max acc (Score.neg (f (G.doMove g m)))) best := by
  intro ms
  induction ms with
  | nil => intro best; rfl
  | cons m ms ih =>
    intro best
    rw [nmLoop, hstep, List.foldl_cons]
    simp only [Option.map_some']
    rw [Score.ifmax_eq, ih]

/-- Fail-soft contract of a value `r` against the true value `W` over the
window `(α, β)`: below the window it is an upper bound, inside it is exact,
above it is a lower bound. -/
abbrev FS (α β r W : Score) : Prop :=
  (r ≤ α → W ≤ r) ∧ (α < r → r < β → r = W) ∧ (β ≤ r → r ≤ W)

theorem abLoop_cons (step : σ → Score → Score → Option Score) (G : GameIF σ μ)
    (g : σ) (β : Score) (m : μ) (ms : List μ) (best αc : Score) :
    abLoop step G g true β (m :: ms) best αc =
      (let v := (step (G.doMove g m) β.neg αc.neg).map Score.neg
       let best' := match v with
         | none => best
         | some v => if best < v then v else best
       let α' := if αc < best' then best' else αc
       if α' < β then abLoop step G g true β ms best' α' else best') := rfl

/-- Fail-soft contract of the alpha-beta move loop (soft windows), given the
contract for the recursive calls one ply down. -/
theorem abLoop_failsoft (G : GameIF σ μ) (t : Int) (d : Nat) (g : σ)
    (α β : Score) (hαβ : α < β)
    (hIH : ∀ (s : σ) (a b : Score), a < b →
      ∃ rc, negamax_alphabeta G t d s a b true = some rc ∧
        FS a b rc (nmv G t d s)) :
    ∀ (ms : List μ) (best αc : Score), αc = max α best → best < β →
      FS α β
        (abLoop (fun s a bt => negamax_alphabeta G t d s a bt true) G g true β
          ms best αc)
        (ms.foldl (fun a m => max a (Score.neg (nmv G t d (G.doMove g m)))) best) := by
  intro ms
  induction ms with
  | nil =>
    intro best αc hα hbβ
    exact ⟨fun _ => le_rfl, fun _ _ => rfl, fun _ => le_rfl⟩
  | cons m ms ih =>
    intro best αc hα hbβ
    have hbα : best ≤ αc := hα ▸ le_max_right α best
    have hααc : α ≤ αc := hα ▸ le_max_left α best
    have hαcβ : αc < β := hα ▸ max_lt hαβ hbβ
    obtain ⟨rc, hrc, c1, c2, c3⟩ := hIH (G.doMove g m) β.neg αc.neg
      (Score.neg_lt_neg_iff.mpr hαcβ)
    have hrcneg : rc = (Score.neg rc).neg := (Score.neg_neg rc).symm
    set v : Score := Score.neg rc with hvdef
    set w : Score := Score.neg (nmv G t d (G.doMove g m)) with hwdef
    -- translate the child's contract to the parent's view
    have hwv_exact : αc < v → v < β → v = w := by
      intro h1 h2
      have e1 : β.neg < rc := by
        rw [hrcneg]
        exact Score.neg_lt_neg_iff.mpr h2
      have e2 : rc < αc.neg := by
        rw [hrcneg]
        exact Score.neg_lt_neg_iff.mpr h1
      have := (c2 e1 e2 : rc = nmv G t d (G.doMove g m))
      rw [hvdef, this]
    have hwv_low : v ≤ αc → w ≤ v := by
      intro h1
      have e1 : αc.neg ≤ rc := by
        rw [hrcneg]
        exact Score.neg_le_neg_iff.mpr h1
      have := c3 e1
      rw [hvdef, hwdef]
      exact Score.neg_le_neg_iff.mpr this
    have hwv_high : β ≤ v → v ≤ w := by
      intro h1
      have e1 : rc ≤ β.neg := by
        rw [hrcneg]
        exact Score.neg_le_neg_iff.mpr h1
      have := c1 e1
      rw [hvdef, hwdef]
      exact Score.neg_le_neg_iff.mpr this
    -- unfold one loop step and one fold step
    rw [abLoop_cons]
    simp only [hrc, Option.map_some']
    rw [List.foldl_cons]
    simp only [← hvdef, ← hwdef, Score.ifmax_eq best v, Score.ifmax_eq αc (max best v)]
    rcases le_or_lt β v with hC | hvβ
    · -- fail-high child: cutoff, return `max best v = v`
      have hbv : best ≤ v := hbβ.le.trans hC
      have hbest' : max best v = v := max_eq_right hbv
      have hcut : ¬max αc v < β := not_lt.mpr (hC.trans (le_max_right αc v))
      rw [hbest', if_neg hcut]
      have hvw : v ≤ w := hwv_high hC
      refine ⟨?_, ?_, ?_⟩
      · intro hrα
        exact absurd (lt_of_le_of_lt (hrα.trans hααc) hαcβ) (not_lt.mpr hC)
      · intro _ hrβ
        exact absurd hrβ (not_lt.mpr hC)
      · intro _
        calc v ≤ w := hvw
          _ ≤ max best w := le_max_right _ _
          _ ≤ ms.foldl (fun a m => max a (Score.neg (nmv G t d (G.doMove g m))))
              (max best w) := le_foldl_max _ _ _
    · rcases le_or_lt v αc with hB | hA
      · -- fail-low child: `v` only over-approximates, alpha unchanged
        have hwv : w ≤ v := hwv_low hB
        have hbest'le : max best v ≤ αc := max_le hbα hB
        have hα' : max αc (max best v) = αc := max_eq_left hbest'le
        rw [hα', if_pos hαcβ]
        have hαeq : αc = max α (max best v) := by
          rw [hα]
          exact le_antisymm (max_le_max le_rfl (le_max_left _ _))
            (max_le (le_max_left α best)
              (max_le (le_max_right α best) (hα ▸ hB)))
        have hbest'β : max best v < β := lt_of_le_of_lt hbest'le hαcβ
        obtain ⟨i1, i2, i3⟩ := ih (max best v) αc hαeq hbest'β
        have hWmono :
            ms.foldl (fun a m => max a (Score.neg (nmv G t d (G.doMove g m))))
              (max best w) ≤
            ms.foldl (fun a m => max a (Score.neg (nmv G t d (G.doMove g m))))
              (max best v) :=
          foldl_max_mono _ ms (max_le_max le_rfl hwv)
        set r := abLoop (fun s a bt => negamax_alphabeta G t d s a bt true) G g
          true β ms (max best v) αc with hrdef
        refine ⟨?_, ?_, ?_⟩
        · intro hrα
          exact hWmono.trans (i1 hrα)
        · intro hαr hrβ
          have hrW' := i2 hαr hrβ
          rcases le_or_lt r αc with hrαc | hrαc
          · -- the value never rose above alpha: it equals `best = αc`
            have hbgtα : α < best := by
              by_contra hle
              have hacα : αc = α := by rw [hα, max_eq_left (not_lt.mp hle)]
              exact absurd (hαr.trans_le (hacα ▸ hrαc)) (lt_irrefl α)
            have hαcbest : αc = best := by rw [hα, max_eq_right hbgtα.le]
            have hrbest : best ≤ r := by
              rw [hrW', foldl_max_factor]
              exact (le_max_left best v).trans (le_max_left _ _)
            have hreq : r = best := le_antisymm (hαcbest ▸ hrαc) hrbest
            have hWle :
                ms.foldl (fun a m => max a (Score.neg (nmv G t d (G.doMove g m))))
                  (max best w) ≤ r := by
              rw [hrW']
              exact hWmono
            have hWge :
                r ≤ ms.foldl (fun a m => max a (Score.neg (nmv G t d (G.doMove g m))))
                  (max best w) := by
              rw [hreq]
              exact (le_max_left best w).trans (le_foldl_max _ _ _)
            exact le_antisymm hWge hWle
          · -- the value rose strictly above alpha: it lives in the tail fold
            have hW'M :
                ms.foldl (fun a m => max a (Score.neg (nmv G t d (G.doMove g m))))
                  (max best v) =
                ms.foldl (fun a m => max a (Score.neg (nmv G t d (G.doMove g m))))
                  Score.negInf := by
              rw [foldl_max_factor]
              rcases max_choice (max best v)
                (ms.foldl (fun a m => max a (Score.neg (nmv G t d (G.doMove g m))))
                  Score.negInf) with hch | hch
              · exfalso
                rw [hrW', foldl_max_factor, hch] at hrαc
                exact absurd (lt_of_lt_of_le hrαc hbest'le) (lt_irrefl αc)
              · exact hch
            have hMgt : αc <
                ms.foldl (fun a m => max a (Score.neg (nmv G t d (G.doMove g m))))
                  Score.negInf := by
              rw [← hW'M, ← hrW']
              exact hrαc
            have hWM :
                ms.foldl (fun a m => max a (Score.neg (nmv G t d (G.doMove g m))))
                  (max best w) =
                ms.foldl (fun a m => max a (Score.neg (nmv G t d (G.doMove g m))))
                  Score.negInf := by
              rw [foldl_max_factor]
              exact max_eq_right
                ((max_le hbα (hwv.trans hB)).trans hMgt.le)
            rw [hrW', hW'M, hWM]
        · intro hβr
          have hrW' := i3 hβr
          have hrM :
              r ≤ ms.foldl (fun a m => max a (Score.neg (nmv G t d (G.doMove g m))))
                Score.negInf := by
            rcases le_max_iff.mp ((foldl_max_factor _ ms (max best v)) ▸ hrW')
              with h' | h'
            · exact absurd (lt_of_le_of_lt (h'.trans hbest'le) hαcβ)
                (not_lt.mpr hβr)
            · exact h'
          rw [foldl_max_factor]
          exact hrM.trans (le_max_right _ _)
      · -- exact child: `v = w`, continue with a tightened alpha
        have hvw : v = w := hwv_exact hA hvβ
        have hbest'β : max best v < β := max_lt hbβ hvβ
        have hα'eq : max αc (max best v) = max α (max best v) := by
          rw [hα, max_assoc, max_eq_right (le_max_left best v)]
        have hcut : max αc (max best v) < β := by
          rw [hα'eq]
          exact max_lt hαβ hbest'β
        rw [if_pos hcut]
        have IH := ih (max best v) (max αc (max best v)) hα'eq hbest'β
        rw [show max best w = max best v by rw [hvw]]
        exact IH

/-- Fail-soft correctness of `negamax_alphabeta` (default soft mode) against
plain `negamax`, for every depth, position and window. -/
theorem alphabeta_failsoft (G : GameIF σ μ) (t : Int) (h : 0 ≤ t) :
    ∀ (d : Nat) (g : σ) (α β : Score), α < β →
      ∃ r, negamax_alphabeta G t d g α β true = some r ∧
        FS α β r (nmv G t d g) := by
  intro d
  induction d with
  | zero =>
    intro g α β hαβ
    have hval : negamax_alphabeta G t 0 g α β true = negamax G t 0 g := by
      rw [negamax_alphabeta, negamax]
    obtain ⟨v, hv⟩ := negamax_isSome G h 0 g
    have hnmv : nmv G t 0 g = v := by
      rw [nmv, hv]
      rfl
    exact ⟨v, by rw [hval, hv], fun _ => hnmv.le, fun _ _ => hnmv.symm,
      fun _ => hnmv.ge⟩
  | succ d ihd =>
    intro g α β hαβ
    have ht : ¬t < 0 := not_lt.mpr h
    by_cases hw : G.winnerTurn g
    · have hAB : negamax_alphabeta G t (d + 1) g α β true = some Score.negInf := by
        rw [negamax_alphabeta, if_neg ht, if_pos hw]
      have hN : negamax G t (d + 1) g = some Score.negInf := by
        rw [negamax, if_neg ht, if_pos hw]
      have hnmv : nmv G t (d + 1) g = Score.negInf := by
        rw [nmv, hN]
        rfl
      exact ⟨_, hAB, fun _ => hnmv.le, fun _ _ => hnmv.symm, fun _ => hnmv.ge⟩
    · by_cases hf : G.isFull g
      · have hAB : negamax_alphabeta G t (d + 1) g α β true =
            some (Score.fin (-(G.getScore g))) := by
          rw [negamax_alphabeta, if_neg ht, if_neg hw, if_pos hf]
        have hN : negamax G t (d + 1) g = some (Score.fin (-(G.getScore g))) := by
          rw [negamax, if_neg ht, if_neg hw, if_pos hf]
        have hnmv : nmv G t (d + 1) g = Score.fin (-(G.getScore g)) := by
          rw [nmv, hN]
          rfl
        exact ⟨_, hAB, fun _ => hnmv.le, fun _ _ => hnmv.symm, fun _ => hnmv.ge⟩
      · have hAB : negamax_alphabeta G t (d + 1) g α β true =
            some (abLoop (fun s a bt => negamax_alphabeta G t d s a bt true) G g
              true β (G.sortedMoves g) Score.negInf α) := by
          rw [negamax_alphabeta, if_neg ht, if_neg hw, if_neg hf]
        have hN : negamax G t (d + 1) g =
            some (nmLoop (fun s => negamax G t d s) G g (G.sortedMoves g)
              Score.negInf) := by
          rw [negamax, if_neg ht, if_neg hw, if_neg hf]
        have hnmv : nmv G t (d + 1) g =
            (G.sortedMoves g).foldl
              (fun a m => max a (Score.neg (nmv G t d (G.doMove g m))))
              Score.negInf := by
          rw [nmv, hN, Option.getD_some]
          exact nmLoop_eq_fold G g _ (nmv G t d)
            (fun s => negamax_eq_nmv G h d s) _ _
        have hloop := abLoop_failsoft G t d g α β hαβ
          (fun s a b hab => ihd s a b hab) (G.sortedMoves g)
          Score.negInf α (max_eq_left (Score.negInf_le α)).symm
          (lt_of_le_of_lt (Score.negInf_le α) hαβ)
        rw [hnmv]
        exact ⟨_, hAB, hloop⟩

/-- C2: for every game interface, position and depth, with a budget on which
no timeout fires, `negamax_alphabeta` with the default full window and soft
mode returns the same value as plain `negamax`. -/
theorem claim_alphabeta_eq_negamax (σ μ : Type) (G : GameIF σ μ) (t : Int)
    (h : 0 ≤ t) (d : Nat) (g : σ) :
    negamax_alphabeta G t d g Score.negInf Score.posInf true = negamax G t d g := by
  obtain ⟨r, hr, c1, c2, c3⟩ :=
    alphabeta_failsoft G t h d g Score.negInf Score.posInf (by decide)
  rw [hr, negamax_eq_nmv G h d g]
  congr 1
  rcases le_or_lt r Score.negInf with h1 | h1
  · have hre : r = Score.negInf := le_antisymm h1 (Score.negInf_le r)
    have hn : nmv G t d g ≤ Score.negInf := hre ▸ c1 hre.le
    have hnm : nmv G t d g = Score.negInf :=
      le_antisymm hn (Score.negInf_le _)
    rw [hre, hnm]
  · rcases lt_or_le r Score.posInf with h2 | h2
    · exact c2 h1 h2
    · have hre : r = Score.posInf := le_antisymm (Score.le_posInf r) h2
      have hn : Score.posInf ≤ nmv G t d g := hre ▸ c3 hre.ge
      have hnm : nmv G t d g = Score.posInf :=
        le_antisymm (Score.le_posInf _) hn
      rw [hre, hnm]

/-- Witness for C2 at a concrete board, depth and budget. -/
theorem claim_alphabeta_eq_negamax_witness :
    negamax_alphabeta boardIF 0 2 (Board.mkBoard 2 2 2) Score.negInf Score.posInf
      true = negamax boardIF 0 2 (Board.mkBoard 2 2 2) :=
  claim_alphabeta_eq_negamax Board (Int × Int) boardIF 0 (by decide) 2
    (Board.mkBoard 2 2 2)

/-! Section: Claim theorems for the board layer -/

/-- C1: on every well-formed board state (plain: `rows × cols` grid and a
game turn; gravity: the data model's heights/grid invariant), doing an
available move and then undoing it returns the board — grid, turn, and for
gravity boards column heights — to a state identical to the original. -/
theorem claim_do_undo_symmetry :
    (∀ (b : Board) (m : Int × Int), b.WF → (b.turn = 1 ∨ b.turn = 2) →
      m ∈ b.availMoves →
      (b.doMove m).1 = true ∧ (b.doMove m).2.undoMove m = (true, b)) ∧
    (∀ (b : BoardG) (c : Int), b.InvG → (b.turn = 1 ∨ b.turn = 2) →
      c ∈ b.availMovesG →
      ∃ b₁, b.doMoveG c = some (true, b₁) ∧ b₁.undoMoveG c = some (true, b)) :=
  ⟨Board.do_then_undo, BoardG.do_then_undoG⟩

/-- Witness for C1 on concrete plain and gravity boards. -/
theorem claim_do_undo_symmetry_witness :
    (((Board.mkBoard 1 2 2).doMove (0, 0)).1 = true ∧
      ((Board.mkBoard 1 2 2).doMove (0, 0)).2.undoMove (0, 0) =
        (true, Board.mkBoard 1 2 2)) ∧
    (∃ b₁, (BoardG.mkBoardG 2 2 2).doMoveG 0 = some (true, b₁) ∧
      b₁.undoMoveG 0 = some (true, BoardG.mkBoardG 2 2 2)) :=
  ⟨claim_do_undo_symmetry.1 (Board.mkBoard 1 2 2) (0, 0)
      (by exact ⟨by decide, by decide⟩) (by decide) (by decide),
    claim_do_undo_symmetry.2 (BoardG.mkBoardG 2 2 2) 0
      (by refine ⟨?_, ?_, ?_, ?_, ?_⟩ <;> decide) (by decide) (by decide)⟩

/-- C8: on every gravity board reachable from reset by `do_move`/`undo_move`
calls, `column_heights[c]` equals the number of non-empty cells of column
`c`; `do_move(c)` increments it exactly when it succeeds and `undo_move(c)`
decrements it exactly when it succeeds. -/
theorem claim_gravity_heights (b : BoardG) (hreach : b.ReachG) :
    (∀ c : Nat, c < b.cols → b.heights.getD c 0 = (b.colCount c : Int)) ∧
    (∀ (c : Int) (res : Bool) (b' : BoardG), b.doMoveG c = some (res, b') →
      (res = true →
        b'.heights.getD c.toNat 0 = b.heights.getD c.toNat 0 + 1) ∧
      (res = false → b'.heights = b.heights)) ∧
    (∀ (c : Int) (res : Bool) (b' : BoardG), b.undoMoveG c = some (res, b') →
      (res = true →
        b'.heights.getD c.toNat 0 = b.heights.getD c.toNat 0 - 1) ∧
      (res = false → b'.heights = b.heights)) := by
  obtain ⟨hInv, _⟩ := BoardG.ReachG_inv hreach
  exact ⟨fun c hc => BoardG.InvG_heights_eq_colCount hInv hc,
    fun c res b' h => BoardG.doMoveG_heights_effect hInv h,
    fun c res b' h => BoardG.undoMoveG_heights_effect hInv h⟩

/-- Witness for C8 at the reset 2×2 gravity board, column 0. -/
theorem claim_gravity_heights_witness :
    (BoardG.mkBoardG 2 2 2).heights.getD 0 0 =
      ((BoardG.mkBoardG 2 2 2).colCount 0 : Int) :=
  (claim_gravity_heights (BoardG.mkBoardG 2 2 2)
    (BoardG.ReachG.init 2 2 2 (by omega))).1 0 (by decide)

/-- C3 (code evaluated at the failing input): `do_moves` on a fresh 2×2 board
applying `[(0,0), (5,5)]` with `reset=True` returns `False`, but the board is
left with the first move still applied — not the pre-call (reset) state.  The
rollback `undo_moves(coords[::-1])` starts with the out-of-bounds `(5,5)`,
whose `undo_move` fails, and the short-circuiting `all` never undoes
`(0,0)`. -/
theorem claim_do_moves_not_transactional :
    (Board.doMoves (Board.mkBoard 2 2 2) [(0, 0), (5, 5)] true).1 = false ∧
    (Board.doMoves (Board.mkBoard 2 2 2) [(0, 0), (5, 5)] true).2 ≠
      Board.mkBoard 2 2 2 := by
  constructor
  · decide
  · decide

/-- C9 counterexample: `is_avail_move` is not bounds-checked — at the
out-of-bounds coordinate `(3, 0)` of a 3×3 board it raises `IndexError`
(`none`) instead of returning `false`. -/
theorem claim_is_avail_move_raises :
    (Board.mkBoard 3 3 3).isAvailMove (3, 0) = none := by decide

theorem npIndex_none {n : Nat} {i : Int} (h : (n : Int) ≤ i ∨ i < -(n : Int)) :
    npIndex n i = none := by
  unfold npIndex
  rw [if_neg (by omega), if_neg (by omega)]

/-- C9 amended: `do_move` and `undo_move` never raise for any integer
coordinate and return `false` without mutating the board on an invalid move;
`is_avail_move`, however, performs an unguarded grid read: it raises
`IndexError` for any coordinate beyond numpy's wrap range. -/
theorem claim_move_failure_semantics (b : Board) (m : Int × Int) :
    ((b.doMove m).1 = false → (b.doMove m).2 = b) ∧
    ((b.undoMove m).1 = false → (b.undoMove m).2 = b) ∧
    ((b.rows : Int) ≤ m.1 ∨ m.1 < -(b.rows : Int) ∨ (b.cols : Int) ≤ m.2 ∨
        m.2 < -(b.cols : Int) →
      b.isAvailMove m = none) := by
  refine ⟨?_, ?_, ?_⟩
  · intro hfail
    by_cases hmem : m ∈ b.availMoves
    · rw [Board.doMove, if_pos hmem] at hfail
      simp at hfail
    · rw [Board.doMove, if_neg hmem]
  · intro hfail
    by_cases hcond : b.isValidMoveB m = true ∧ b.cellN m.1.toNat m.2.toNat ≠ 0
    · rw [Board.undoMove, if_pos hcond] at hfail
      simp at hfail
    · rw [Board.undoMove, if_neg hcond]
  · intro hoob
    unfold Board.isAvailMove Board.cellI
    rcases hoob with h1 | h1 | h1 | h1
    · rw [npIndex_none (Or.inl h1)]
      rfl
    · rw [npIndex_none (Or.inr h1)]
      rfl
    · rw [npIndex_none (Or.inl h1)]
      cases npIndex b.rows m.1 <;> rfl
    · rw [npIndex_none (Or.inr h1)]
      cases npIndex b.rows m.1 <;> rfl

/-- Witness for the C9 amended statement at a concrete board and
coordinate. -/
theorem claim_move_failure_semantics_witness :
    (Board.mkBoard 3 3 3).isAvailMove (5, 5) = none :=
  (claim_move_failure_semantics (Board.mkBoard 3 3 3) (5, 5)).2.2 (by decide)

/-! Section: Claim theorems for the search engine -/

/-- C4 counterexample: already at depth 0 on the empty 1×2 board, `negascout`
(default parameters, ample budget) and `negamax_alphabeta` return different
values (`get_score` versus `-get_score`). -/
theorem claim_negascout_neq_alphabeta :
    negascout boardIF 10 0 (Board.mkBoard 1 2 2) Score.negInf Score.posInf true 3 ≠
      negamax_alphabeta boardIF 10 0 (Board.mkBoard 1 2 2) Score.negInf
        Score.posInf true := by decide

/-- C4 amended: `negascout`'s terminal evaluation is `game.get_score()`, the
opposite sign of `negamax_alphabeta`'s `-game.get_score()`; hence at depth 0
the two agree exactly on positions where the last mover has won (both
`-win_score`) and return negated values otherwise. -/
theorem claim_negascout_depth0_sign (σ μ : Type) (G : GameIF σ μ) (t : Int)
    (h : 0 ≤ t) (g : σ) :
    negascout G t 0 g Score.negInf Score.posInf true 3 =
      if G.winnerTurn g then
        negamax_alphabeta G t 0 g Score.negInf Score.posInf true
      else
        (negamax_alphabeta G t 0 g Score.negInf Score.posInf true).map
          Score.neg := by
  have ht : ¬t < 0 := not_lt.mpr h
  rw [negascout, negamax_alphabeta, if_neg ht]
  by_cases hw : G.winnerTurn g
  · rw [if_pos hw, if_pos hw, if_pos hw]
  · rw [if_neg hw, if_neg hw, if_neg hw]
    simp [Score.neg]

/-- Witness for the C4 amended statement at a concrete board. -/
theorem claim_negascout_depth0_sign_witness :
    negascout boardIF 10 0 (Board.mkBoard 1 2 2) Score.negInf Score.posInf true 3 =
      if boardIF.winnerTurn (Board.mkBoard 1 2 2) then
        negamax_alphabeta boardIF 10 0 (Board.mkBoard 1 2 2) Score.negInf
          Score.posInf true
      else
        (negamax_alphabeta boardIF 10 0 (Board.mkBoard 1 2 2) Score.negInf
          Score.posInf true).map Score.neg :=
  claim_negascout_depth0_sign Board (Int × Int) boardIF 10 (by decide)
    (Board.mkBoard 1 2 2)

/-- C5 counterexample: `negascout` called with a negative remaining budget
does not return the `np.nan` sentinel — it evaluates the position
heuristically (here to `get_score = -1`). -/
theorem claim_timeout_negascout_heuristic :
    negascout boardIF (-1) 1 (Board.mkBoard 1 2 2) Score.negInf Score.posInf
        true 3 ≠ none ∧
    negascout boardIF (-1) 1 (Board.mkBoard 1 2 2) Score.negInf Score.posInf
        true 3 = some (Score.fin (-1)) := by
  constructor
  · decide
  · decide

/-- C5 amended: with a negative remaining budget, `negamax`,
`negamax_alphabeta`, `negamax_alphabeta_caching` and
`negamax_alphabeta_hashing` return the `np.nan` sentinel without touching
their memory structure, while `negascout` instead forces `depth = 0` and
returns a terminal evaluation. -/
theorem claim_timeout_sentinels (σ μ : Type) (G : GameIF σ μ) (t : Int)
    (d : Nat) (g : σ) (α β : Score) (soft : Bool) (w : Int)
    (c? : Option CacheSet) (h? : Option HashTable) (ht : t < 0) :
    negamax G t d g = none ∧
    negamax_alphabeta G t d g α β soft = none ∧
    negamax_alphabeta_caching G t d g α β soft c? = (none, c?) ∧
    negamax_alphabeta_hashing G t d g α β soft h? = (none, h?) ∧
    negascout G t d g α β soft w =
      some (if G.winnerTurn g then Score.negInf
        else Score.fin (G.getScore g)) := by
  refine ⟨?_, ?_, ?_, ?_, ?_⟩
  · cases d
    · rw [negamax, if_pos ht]
    · rw [negamax, if_pos ht]
  · cases d
    · rw [negamax_alphabeta, if_pos ht]
    · rw [negamax_alphabeta, if_pos ht]
  · cases d
    · rw [negamax_alphabeta_caching, if_pos ht]
    · rw [negamax_alphabeta_caching, if_pos ht]
  · cases d
    · rw [negamax_alphabeta_hashing, if_pos ht]
    · rw [negamax_alphabeta_hashing, if_pos ht]
  · cases d
    · rw [negascout]
      by_cases hw : G.winnerTurn g
      · rw [if_pos hw, if_pos hw]
      · rw [if_neg hw, if_neg hw]
    · rw [negascout, if_pos ht]
      by_cases hw : G.winnerTurn g
      · rw [if_pos hw, if_pos hw]
      · rw [if_neg hw, if_neg hw]

/-- Witness for the C5 amended statement at concrete inputs. -/
theorem claim_timeout_sentinels_witness :
    negamax boardIF (-1) 1 (Board.mkBoard 1 2 2) = none ∧
    negamax_alphabeta boardIF (-1) 1 (Board.mkBoard 1 2 2) Score.negInf
      Score.posInf true = none ∧
    negamax_alphabeta_caching boardIF (-1) 1 (Board.mkBoard 1 2 2) Score.negInf
      Score.posInf true (some []) = (none, some []) ∧
    negamax_alphabeta_hashing boardIF (-1) 1 (Board.mkBoard 1 2 2) Score.negInf
      Score.posInf true (some []) = (none, some []) ∧
    negascout boardIF (-1) 1 (Board.mkBoard 1 2 2) Score.negInf Score.posInf
      true 3 =
      some (if boardIF.winnerTurn (Board.mkBoard 1 2 2) then Score.negInf
        else Score.fin (boardIF.getScore (Board.mkBoard 1 2 2))) :=
  claim_timeout_sentinels Board (Int × Int) boardIF (-1) 1 (Board.mkBoard 1 2 2)
    Score.negInf Score.posInf true 3 (some []) (some []) (by decide)

/-- C6 counterexample: with a stored depth equal to the requested depth
(flag Exact, stored value 999), the hashing variant does not return the
stored value — `hash_depth > depth` is strict — it searches (value 0) and
overwrites the entry. -/
theorem claim_hashing_equal_depth_searches :
    negamax_alphabeta_hashing boardIF 10 1 (Board.mkBoard 1 2 2) Score.negInf
        Score.posInf true
        (some [(([[0, 0]], 2), (Score.fin 999, HASH_FLAG_EXACT, 1))]) =
      (some (Score.fin 0),
        some [(([[0, 0]], 2), (Score.fin 0, HASH_FLAG_EXACT, 1)),
              (([[0, 0]], 2), (Score.fin 999, HASH_FLAG_EXACT, 1))]) ∧
    negamax_alphabeta_hashing boardIF 10 1 (Board.mkBoard 1 2 2) Score.negInf
        Score.posInf true
        (some [(([[0, 0]], 2), (Score.fin 999, HASH_FLAG_EXACT, 1))]) ≠
      (some (Score.fin 999),
        some [(([[0, 0]], 2), (Score.fin 999, HASH_FLAG_EXACT, 1))]) := by
  constructor
  · decide
  · decide

/-- C6 amended: whenever the table holds the position's key with flag Exact
and stored depth strictly greater than the requested depth, the hashing
variant returns the stored value immediately, leaving the table unchanged
(with a non-negative budget). -/
theorem claim_hashing_exact_hit (σ μ : Type) (G : GameIF σ μ) (t : Int)
    (h0 : 0 ≤ t) (d : Nat) (g : σ) (α β : Score) (soft : Bool)
    (hsh : HashTable) (hv : Score) (hd : Nat)
    (hlook : hlookup hsh (G.rep g) = some (hv, HASH_FLAG_EXACT, hd))
    (hdepth : d < hd) :
    negamax_alphabeta_hashing G t d g α β soft (some hsh) =
      (some hv, some hsh) := by
  have ht : ¬t < 0 := not_lt.mpr h0
  have hpr : ∀ dd : Nat, dd < hd →
      hashProbe (G.rep g) dd α β (some hsh) = ProbeResult.ret hv := by
    intro dd hdd
    rw [hashProbe, hlook]
    simp [hdd]
  cases d with
  | zero => rw [negamax_alphabeta_hashing, if_neg ht, hpr 0 hdepth]
  | succ d => rw [negamax_alphabeta_hashing, if_neg ht, hpr (d + 1) hdepth]

/-- Witness for the C6 amended statement: stored depth 2 > requested 1. -/
theorem claim_hashing_exact_hit_witness :
    negamax_alphabeta_hashing boardIF 10 1 (Board.mkBoard 1 2 2) Score.negInf
        Score.posInf true
        (some [(([[0, 0]], 2), (Score.fin 999, HASH_FLAG_EXACT, 2))]) =
      (some (Score.fin 999),
        some [(([[0, 0]], 2), (Score.fin 999, HASH_FLAG_EXACT, 2))]) :=
  claim_hashing_exact_hit Board (Int × Int) boardIF 10 (by decide) 1
    (Board.mkBoard 1 2 2) Score.negInf Score.posInf true
    [(([[0, 0]], 2), (Score.fin 999, HASH_FLAG_EXACT, 2))] (Score.fin 999) 2
    (by decide) (by decide)

/-- C7 (code evaluated at the failing input): on a won 1×1 position with the
empty cache set that `get_best_move` supplies, the caching variant returns
the losing value but adds nothing to the cache — `if cache:` is false for an
empty Python set, so the signature store is dead code on every search that
starts from an empty cache. -/
theorem claim_caching_add_is_dead :
    negamax_alphabeta_caching boardIF 10 1
      (⟨1, 1, 1, [[1]], 1⟩ : Board) Score.negInf Score.posInf true (some []) =
      (some Score.negInf, some []) := by decide

/-- On a full well-formed board there is no available and hence no sorted
move. -/
theorem sortedMoves_eq_nil_of_full {b : Board} (hWF : b.WF)
    (h : b.isFullB = true) : b.sortedMovesB = [] := by
  have hcell : ∀ i j : Nat, i < b.rows → j < b.cols → b.cellN i j ≠ 0 := by
    intro i j hi hj
    have hrow : b.matrix.getD i [] ∈ b.matrix :=
      getD_mem _ _ _ (by rw [hWF.1]; exact hi)
    have hall := (List.all_eq_true.mp h) _ hrow
    have hjlen : j < (b.matrix.getD i []).length := by
      rw [hWF.2 _ hrow]
      exact hj
    have helem := (List.all_eq_true.mp hall) _ (getD_mem _ j (0 : Nat) hjlen)
    exact of_decide_eq_true helem
  have hav : b.availMoves = [] := by
    rw [List.eq_nil_iff_forall_not_mem]
    intro m hm
    obtain ⟨i, j, hi, hj, hc, rfl⟩ := Board.mem_availMoves.mp hm
    exact hcell i j hi hj hc
  unfold Board.sortedMovesB
  rw [hav]
  rfl

/-- With no moves to offer, every iterative-deepening level leaves the empty
candidate list untouched. -/
theorem gbmOuter_nil_choices (func : Board → Nat → Int → Option Score)
    (b : Board) (t : Int) (hsm : boardIF.sortedMoves b = []) :
    ∀ (depths : List Nat) (best : Score),
      (gbmOuter boardIF func b t depths ([], best)).1 = [] := by
  intro depths
  induction depths with
  | nil => intro best; rfl
  | cons dep rest ih =>
    intro best
    rw [gbmOuter, hsm]
    show (let r := ((some best, best, []) : Option Score × Score × List (Int × Int))
      let choices' := if r.1 ≠ none ∧ r.2.2 ≠ [] then r.2.2 else []
      if r.2.1 = Score.posInf ∨ r.2.1 = Score.negInf then (choices', r.2.1)
      else if t < 0 then (choices', r.2.1)
      else gbmOuter boardIF func b t rest (choices', r.2.1)).1 = []
    by_cases h1 : best = Score.posInf ∨ best = Score.negInf
    · simp [h1]
    · by_cases h2 : t < 0
      · simp [h1, h2]
      · simp [h1, h2, ih best]

/-- C10: `get_best_move` on a full board (no available moves) reaches the
final `choices[0]` with an empty candidate list and raises `IndexError`
(`none`), whatever search function, budget and depth cap are used. -/
theorem claim_get_best_move_full_raises (b : Board) (hWF : b.WF)
    (hfull : b.isFullB = true) (func : Board → Nat → Int → Option Score)
    (t maxDepth : Int) :
    get_best_move boardIF func b t maxDepth = none := by
  have hsm : boardIF.sortedMoves b = [] := sortedMoves_eq_nil_of_full hWF hfull
  simp only [get_best_move, hsm, gbmOuter_nil_choices func b t hsm]

/-- Witness for C10 at a concrete full board. -/
theorem claim_get_best_move_full_raises_witness :
    get_best_move boardIF (fun s d t => negamax boardIF t d s)
      (⟨1, 1, 1, [[1]], 1⟩ : Board) 10 0 = none :=
  claim_get_best_move_full_raises (⟨1, 1, 1, [[1]], 1⟩ : Board)
    (by exact ⟨by decide, by decide⟩) (by decide)
    (fun s d t => negamax boardIF t d s) 10 0
